import Mathlib

/-!
Verification development for the `oracle-on-the-go` SQL runner (`gocl`).

The repository carries two revisions of the program side by side:
`src/unnamed/part_002` (the flag-driven multi-output revision, functions
`processCommands`, `extractQueryInfo`, `cleanQuery`, `substituteParams`,
`executeQuery`, `writeCSV`, `writeHTMLTable`, `writeExcel`,
`sanitizeSheetName`) and `src/main.go` (the single-output revision, functions
`processLines`, `substituteParams`, `executeTextQueries`, `executeQueryDefault`,
`formatCSV`, `formatJira`, `escapeHTML`, `executeExcelQueries`).

Strings are modelled as lists of characters (`Str`); the Go standard-library
string helpers used by the program are embedded first, then each program
function, keeping the source's names.  Byte-level details (UTF-8 byte slicing
in `name[:31]`) are modelled at character granularity, which coincides with
the source on ASCII data.
-/

namespace OracleGo

abbrev Str := List Char

/-- ASCII fragment of `unicode.IsSpace`, the class trimmed by
`strings.TrimSpace`. -/
def isSpace (c : Char) : Bool :=
  c == ' ' || c == '\t' || c == '\n' || c == '\x0b' || c == '\x0c' || c == '\r'

/-- The character class `\s` of Go's `regexp` package: `[\t\n\f\r ]`
(unlike `unicode.IsSpace` it excludes vertical tab). -/
def isRegexSpace (c : Char) : Bool :=
  c == ' ' || c == '\t' || c == '\n' || c == '\x0c' || c == '\r'

/-- `strings.HasPrefix pat s`: `pat` is a prefix of `s` (argument order:
pattern first). -/
def isPre : Str → Str → Bool
  | [], _ => true
  | _ :: _, [] => false
  | p :: ps, c :: cs => p == c && isPre ps cs

/-- `strings.Contains s pat`. -/
def hasSub : Str → Str → Bool
  | [], pat => pat.isEmpty
  | c :: rest, pat => isPre pat (c :: rest) || hasSub rest pat

/-- `strings.Index s pat` (as an `Option` instead of `-1`). -/
def idxSub : Str → Str → Option Nat
  | [], pat => if pat.isEmpty then some 0 else none
  | c :: rest, pat =>
    if isPre pat (c :: rest) then some 0
    else (idxSub rest pat).map (· + 1)

/-- Left half of `strings.TrimSpace`. -/
def trimLeftWS (s : Str) : Str := s.dropWhile isSpace

/-- Right half of `strings.TrimSpace`. -/
def trimRightWS (s : Str) : Str := (s.reverse.dropWhile isSpace).reverse

/-- `strings.TrimSpace`. -/
def trimSpace (s : Str) : Str := trimRightWS (trimLeftWS s)

/-- Scanner of `strings.ReplaceAll` for a non-empty pattern `o :: os`:
left-to-right, non-overlapping; after a match the scan resumes past the
matched text.  Recursion is structural over a fuel counter so that the
definition evaluates by iota reduction; every call site passes
`fuel ≥ s.length`, which makes the fuel-exhaustion clause unreachable
(`replaceAllAux_fuel` below shows the fuel does not matter). -/
def replaceAllAux (o : Char) (os new : Str) : Nat → Str → Str
  | _, [] => []
  | 0, s => s
  | fuel + 1, c :: rest =>
    if isPre (o :: os) (c :: rest) then
      new ++ replaceAllAux o os new fuel (rest.drop os.length)
    else c :: replaceAllAux o os new fuel rest

/-- `strings.ReplaceAll s old new`.  (For `old = ""` Go splices `new` between
runes; no call site of the program passes an empty pattern, and that case is
modelled as the identity.) -/
def replaceAll (s old new : Str) : Str :=
  match old with
  | [] => s
  | o :: os => replaceAllAux o os new s.length s

/-- `strings.Split s "\n"`. -/
def splitOnNL : Str → List Str
  | [] => [[]]
  | c :: rest =>
    if c = '\n' then [] :: splitOnNL rest
    else
      match splitOnNL rest with
      | [] => [[c]]
      | l :: ls => (c :: l) :: ls

/-- `strings.Join ls "\n"` (inverse of `splitOnNL`). -/
def joinNL : List Str → Str
  | [] => []
  | [l] => l
  | l :: ls => l ++ '\n' :: joinNL ls

/-- `strings.Join ls sep` for a one-character separator. -/
def joinWith (sep : Char) : List Str → Str
  | [] => []
  | [l] => l
  | l :: ls => l ++ sep :: joinWith sep ls

/-- `strings.TrimSuffix s pat`: removes one copy of the suffix, if present. -/
def trimSuffixStr (s pat : Str) : Str :=
  if isPre pat.reverse s.reverse then s.take (s.length - pat.length) else s

/-! ## Statement splitting

`isCommandSeparator` (part_002, lines 402-417) trims the line and accepts a
non-empty all-`/` result; `main.go` (lines 397-399) tests
`trimmed != "" && strings.Trim(trimmed, "/") == ""`, which is the same
predicate. -/

def isCommandSeparator (line : Str) : Bool :=
  let t := trimSpace line
  !t.isEmpty && t.all (· == '/')

/-- One loop iteration of `processLines` (main.go, lines 394-416).  The state
is the `strings.Builder` content `buf` and the emitted queries so far.  As in
Go, the builder joins with `"\n"` only when it is already non-empty, and a
separator resets the buffer only when the buffer is non-empty. -/
def splitStep (st : Str × List Str) (line : Str) : Str × List Str :=
  let buf := st.1
  let qs := st.2
  if isCommandSeparator line then
    if buf.isEmpty then (buf, qs)
    else
      let q := trimSpace buf
      ([], if q.isEmpty then qs else qs ++ [q])
  else
    (if buf.isEmpty then line else buf ++ '\n' :: line, qs)

/-- End-of-input flush of `processLines` (main.go, lines 419-424). -/
def finalizeSplit (st : Str × List Str) : List Str :=
  if st.1.isEmpty then st.2
  else
    let q := trimSpace st.1
    if q.isEmpty then st.2 else st.2 ++ [q]

/-- Per-statement cleanup of `processLines` (main.go, lines 427-437): remove
one trailing `";"`, then trim again. -/
def cleanupStmt (q : Str) : Str := trimSpace (trimSuffixStr q [';'])

/-- `processLines` (main.go, lines 389-440). -/
def processLines (lines : List Str) : List Str :=
  ((finalizeSplit (lines.foldl splitStep ([], []))).map cleanupStmt).filter
    (fun q => !q.isEmpty)

/-! ## part_002: `processCommands` as a pure splitter

`processCommands` (part_002, lines 339-400) interleaves splitting with
execution; `pcStep` is its per-line transition on the pair of builders
(statement buffer, comment buffer) plus the list of `(query, comment)` pairs
handed to `extractQueryInfo`/`executeQuery` so far, I/O elided. -/
def pcStep (st : Str × Str × List (Str × Str)) (line : Str) :
    Str × Str × List (Str × Str) :=
  let buf := st.1
  let cbuf := st.2.1
  let em := st.2.2
  if isCommandSeparator line then
    if buf.isEmpty then st
    else ([], [], em ++ [(buf, cbuf)])
  else
    if isPre ['-', '-'] (trimSpace line) then
      (buf, cbuf ++ line ++ ['\n'], em)
    else
      (if buf.isEmpty then line else buf ++ '\n' :: line, cbuf, em)

/-- The ordered `(query, comment)` pairs emitted by `processCommands`
(part_002, lines 351-397), including the end-of-input flush. -/
def processCommandsPairs (lines : List Str) : List (Str × Str) :=
  let st := lines.foldl pcStep ([], [], [])
  if st.1.isEmpty then st.2.2 else st.2.2 ++ [(st.1, st.2.1)]

/-! ## part_002: `extractQueryInfo` and the `-- tab = <name>` directive

The directive is recognised with `regexp.MustCompile("--\\s*tab\\s*=\\s*(.+)")`
and `FindStringSubmatch` (part_002, lines 428-440).  `tabMatchAt` decides a
match anchored at the head of the string and returns the `(.+)` capture;
because each literal (`tab`, `=`) begins with a non-space character, the
greedy `\s*` runs are forced, and the only backtracking point is the final
`\s*(.+)`, which gives back one space when the remainder is all spaces
(`.` matches a space but needs at least one character).  The inputs are lines
produced by splitting on `"\n"`, so they contain no newline and `.` never
hits its newline exclusion. -/
def tabMatchAt : Str → Option Str
  | '-' :: '-' :: rest =>
    match rest.dropWhile isRegexSpace with
    | 't' :: 'a' :: 'b' :: r2 =>
      match r2.dropWhile isRegexSpace with
      | '=' :: r4 =>
        let r5 := r4.dropWhile isRegexSpace
        if r5.isEmpty then
          if r4.isEmpty then none else some (r4.drop (r4.length - 1))
        else some r5
      | _ => none
    | _ => none
  | _ => none

/-- `FindStringSubmatch`: leftmost match of the directive pattern. -/
def tabFind : Str → Option Str
  | [] => none
  | c :: rest =>
    match tabMatchAt (c :: rest) with
    | some cap => some cap
    | none => tabFind rest

/-- Per-line directive extraction of `extractQueryInfo` (part_002, lines
430-441): trim the line, match the regex, trim the capture, cut it at an
embedded `"--"` and trim again. -/
def lineTab (l : Str) : Option Str :=
  match tabFind (trimSpace l) with
  | none => none
  | some cap =>
    let name := trimSpace cap
    match idxSub name ['-', '-'] with
    | some i => some (trimSpace (name.take i))
    | none => some name

structure QueryInfo where
  query : Str
  tableName : Str
deriving DecidableEq, Repr

/-- `extractQueryInfo` (part_002, lines 420-444): the loop takes the first
line whose regex match succeeds (it `break`s immediately), default `""`. -/
def extractQueryInfo (query comment : Str) : QueryInfo :=
  { query := query
    tableName := (List.findSome? lineTab (splitOnNL comment)).getD [] }

/-! ## Query cleanup and parameter substitution -/

/-- Loop of `cleanQuery` (part_002, lines 520-523): while the string ends in
`";"`, remove it (`strings.TrimSuffix` of one `";"` is `take (length - 1)`
here) and trim again.  Each pass shortens the string, so fuel equal to the
initial length never runs out; fuel keeps the recursion structural. -/
def cleanQueryLoop : Nat → Str → Str
  | 0, t => t
  | fuel + 1, t =>
    if isPre [';'] t.reverse then
      cleanQueryLoop fuel (trimSpace (t.take (t.length - 1)))
    else t

/-- `cleanQuery` (part_002, lines 515-526). -/
def cleanQuery (q : Str) : Str := cleanQueryLoop (trimSpace q).length (trimSpace q)

/-- `substituteParams` (part_002 lines 528-535 and main.go lines 159-171):
`strings.ReplaceAll` chained over the parameter map.  Go map iteration order
is unspecified, so the map is modelled as an explicit ordering `ps` of its
entries; main.go's early return for an empty map equals the empty fold. -/
def substituteParams (q : Str) (ps : List (Str × Str)) : Str :=
  ps.foldl (fun r kv => replaceAll r ('&' :: kv.1) kv.2) q

/-! ## Cell rendering

A driver value is `nil` (SQL NULL) or some value whose `fmt.Sprintf("%v", v)`
rendering is abstracted as a string; the row loops convert it as follows. -/

/-- part_002 `executeQuery` (lines 490-497): `nil` becomes the text `NULL`.
The resulting `data` matrix feeds every writer of that revision, including
`writeExcel`. -/
def rowCellP2 (v : Option Str) : Str :=
  match v with
  | none => "NULL".data
  | some s => s

/-- main.go `executeQueryDefault` (lines 699-707): `nil` becomes `""`.  This
is the row conversion for the TSV/CSV/Jira path of that revision. -/
def rowCellMain (v : Option Str) : Str :=
  match v with
  | none => []
  | some s => s

/-- main.go `executeQueryHTML` (lines 649-656): `nil` becomes `""`. -/
def rowCellHTMLMain (v : Option Str) : Str :=
  match v with
  | none => []
  | some s => s

/-- main.go `executeExcelQueries` (lines 588-595): `nil` is written as `""`. -/
def rowCellExcelMain (v : Option Str) : Str :=
  match v with
  | none => []
  | some s => s

/-! ## Text formatters (main.go) -/

/-- `formatTSV` (main.go, lines 732-734). -/
def formatTSV (values : List Str) : Str := joinWith '\t' values

/-- Per-field escaping of `formatCSV` (main.go, lines 736-749): a field
containing comma, quote or newline is wrapped in quotes with inner quotes
doubled, any other field is verbatim. -/
def csvField (v : Str) : Str :=
  if v.any (fun c => c == ',' || c == '"' || c == '\n') then
    '"' :: (replaceAll v ['"'] ['"', '"'] ++ ['"'])
  else v

/-- `formatCSV` (main.go, lines 736-749). -/
def formatCSV (values : List Str) : Str := joinWith ',' (values.map csvField)

/-- `formatJira` (main.go, lines 751-766): escape `|` as `\|`, flatten
newlines to spaces, wrap with pipes. -/
def formatJira (values : List Str) : Str :=
  let escaped := values.map fun v =>
    replaceAll (replaceAll v ['|'] ['\\', '|']) ['\n'] [' ']
  '|' :: (joinWith '|' escaped ++ ['|'])

/-- `formatRow` (main.go, lines 721-730). -/
def formatRow (values : List Str) (format : Str) : Str :=
  if format = "csv".data then formatCSV values
  else if format = "jira".data then formatJira values
  else formatTSV values

/-! ## part_002 CSV and HTML writers -/

/-- The block `writeCSV` (part_002, lines 632-675) appends for one result
set: optional blank separator, optional `# <table>` line, optional header
line, then one line per row — each line `strings.Join(row, ",")`, with no
escaping of any kind. -/
def writeCSVBlock (columns : List Str) (data : List (List Str))
    (withHeader : Bool) (queryIndex : Nat) (tableName : Str) : Str :=
  (if queryIndex > 1 then ['\n'] else [])
    ++ (if !tableName.isEmpty then '#' :: ' ' :: (tableName ++ ['\n']) else [])
    ++ (if withHeader then joinWith ',' columns ++ ['\n'] else [])
    ++ data.flatMap (fun row => joinWith ',' row ++ ['\n'])

/-- `escapeHTML` (main.go, lines 768-776), embedded exactly as written: the
source replaces `"&"` by `"&amp;"`, `"\""` by `"&quot;"` and `"'"` by
`"&#39;"`, but its second and third `strings.ReplaceAll` calls replace `"<"`
by `"<"` and `">"` by `">"` — character-identical no-ops. -/
def escapeHTML (s : Str) : Str :=
  let s := replaceAll s ['&'] "&amp;".data
  let s := replaceAll s ['<'] ['<']
  let s := replaceAll s ['>'] ['>']
  let s := replaceAll s ['"'] "&quot;".data
  replaceAll s ['\''] "&#39;".data

/-- `writeHTMLTable` (part_002, lines 773-803): one `<table>` fragment; the
column names and the cell values are interpolated with `%s`, with no escaping
function applied anywhere in that revision. -/
def htmlTableStr (columns : List Str) (data : List (List Str))
    (withHeader : Bool) (tableName : Str) : Str :=
  (if !tableName.isEmpty then
    "    <div class=\"table-title\">".data ++ tableName ++ "</div>\n".data
   else [])
    ++ "    <table>\n".data
    ++ (if withHeader then
        "        <thead>\n            <tr>\n".data
          ++ columns.flatMap (fun col =>
              "                <th>".data ++ col ++ "</th>\n".data)
          ++ "            </tr>\n        </thead>\n".data
      else [])
    ++ "        <tbody>\n".data
    ++ data.flatMap (fun row =>
        "            <tr>\n".data
          ++ row.flatMap (fun cell =>
              "                <td>".data ++ cell ++ "</td>\n".data)
          ++ "            </tr>\n".data)
    ++ "        </tbody>\n    </table>\n".data

/-! ## part_002 Excel writer -/

/-- `sanitizeSheetName` (part_002, lines 922-945): truncate to 31 first
(bytes in Go, characters here — identical on ASCII), then replace each of
`\ / ? * [ ]` by `_` in that order, then fall back to `"Sheet"` if empty. -/
def sanitizeSheetName (name : Str) : Str :=
  let name := if name.length > 31 then name.take 31 else name
  let name := replaceAll name ['\\'] ['_']
  let name := replaceAll name ['/'] ['_']
  let name := replaceAll name ['?'] ['_']
  let name := replaceAll name ['*'] ['_']
  let name := replaceAll name ['['] ['_']
  let name := replaceAll name [']'] ['_']
  if name.isEmpty then "Sheet".data else name

/-- Modelled from the spec: the spec's words for the sheet-name sanitizer —
"strip characters `\ / ? * [ ]`, truncate to 31 characters, fall back to a
generic name if empty" — used only to compare against the source's
`sanitizeSheetName`. -/
def sanitizeSheetNameSpec (name : Str) : Str :=
  let n := name.filter fun c => !(['\\', '/', '?', '*', '[', ']'].contains c)
  let n := if n.length > 31 then n.take 31 else n
  if n.isEmpty then "Sheet".data else n

/-- Sheet-name choice of `writeExcel` (part_002, lines 882-889): a directive
label is sanitized, otherwise `Results<queryIndex>`. -/
def excelSheetName (tableName : Str) (queryIndex : Nat) : Str :=
  if !tableName.isEmpty then sanitizeSheetName tableName
  else "Results".data ++ (Nat.repr queryIndex).data

/-- The `SetCellValue` calls of `writeExcel` (part_002, lines 893-911) for one
result set, as `(column, row, value)` triples in call order: header cells on
row 1 when enabled, data cell `(i, j)` at column `j+1`, row `i+1` (plus one
when the header is present), values taken verbatim from `data`. -/
def excelCells (columns : List Str) (data : List (List Str))
    (withHeader : Bool) : List (Nat × Nat × Str) :=
  (if withHeader then columns.enum.map (fun p => (p.1 + 1, 1, p.2)) else [])
    ++ data.enum.flatMap (fun ri =>
        ri.2.enum.map (fun cj =>
          (cj.1 + 1, (if withHeader then ri.1 + 2 else ri.1 + 1), cj.2)))

/-! ## Batch execution policies

The database collaborator is abstracted as `db : Str → Except Str Unit`
(statement text to success or driver error text); the two revisions' loops
are embedded with I/O elided. -/

/-- part_002 `processCommands`/`executeQuery` (lines 356-373, 446-513): each
emitted `(query, comment)` pair is cleaned, substituted and executed; on the
first failure the error is returned immediately, so nothing after it runs.
The result is the list of statements actually handed to the driver paired
with the surfaced error, if any. -/
def runBatchP2 (db : Str → Except Str Unit) (ps : List (Str × Str)) :
    List (Str × Str) → List Str × Option Str
  | [] => ([], none)
  | p :: rest =>
    let s := substituteParams (cleanQuery (extractQueryInfo p.1 p.2).query) ps
    match db s with
    | .error e => ([s], some e)
    | .ok _ =>
      let r := runBatchP2 db ps rest
      (s :: r.1, r.2)

/-- main.go `executeTextQueries` (lines 472-491) with `executeTextQuery`
(lines 493-498): each query is trimmed, empty ones are skipped, a failure is
printed to stderr and the loop *continues*; the function returns `nil`
regardless.  The result is the list of statements handed to the driver paired
with the errors that were only logged. -/
def runBatchMain (db : Str → Except Str Unit) :
    List Str → List Str × List Str
  | [] => ([], [])
  | q :: rest =>
    let t := trimSpace q
    if t.isEmpty then runBatchMain db rest
    else
      match db t with
      | .error e =>
        let r := runBatchMain db rest
        (t :: r.1, e :: r.2)
      | .ok _ =>
        let r := runBatchMain db rest
        (t :: r.1, r.2)

/-! ## Reference CSV reader

A plain RFC-4180 field reader used to state the round-trip property: outside
quotes a comma splits and a quote opens a quoted run; inside quotes `""` is a
literal quote and a lone quote closes the run. -/
def splitCSVAux : Bool → Str → List Str → Str → List Str
  | _, cur, acc, [] => acc ++ [cur.reverse]
  | true, cur, acc, '"' :: '"' :: rest2 => splitCSVAux true ('"' :: cur) acc rest2
  | true, cur, acc, '"' :: rest => splitCSVAux false cur acc rest
  | true, cur, acc, c :: rest => splitCSVAux true (c :: cur) acc rest
  | false, cur, acc, c :: rest =>
    if c = ',' then splitCSVAux false [] (acc ++ [cur.reverse]) rest
    else if c = '"' then splitCSVAux true cur acc rest
    else splitCSVAux false (c :: cur) acc rest

def parseCSVLine (s : Str) : List Str := splitCSVAux false [] [] s

/-! ## Vocabulary for the splitter round-trip (spec §8) -/

/-- A string consisting of whitespace only (a blank line, or a whitespace-only
statement buffer). -/
abbrev AllSpace (w : Str) : Prop := ∀ c ∈ w, isSpace c = true

/-- A line that the splitter consumes without contributing statement text:
blank, or a `/`-separator. -/
abbrev GlueLine (l : Str) : Prop := AllSpace l ∨ isCommandSeparator l = true

/-- Lines permitted around a separator between two statements: blanks and
separators only, with at least one separator present. -/
abbrev SepGlue (g : List Str) : Prop :=
  (∀ l ∈ g, GlueLine l) ∧ ∃ l ∈ g, isCommandSeparator l = true

/-- An already-clean statement in the sense of spec §8: trimmed, non-empty,
no line of it is a `/`-separator, and the per-statement cleanup (trailing
semicolon removal + re-trim) leaves it unchanged. -/
abbrev CleanStmt (q : Str) : Prop :=
  trimSpace q = q ∧ q ≠ [] ∧ (∀ l ∈ splitOnNL q, isCommandSeparator l = false) ∧
    cleanupStmt q = q

/-- The concatenation of `N = 1 + rest.length` statements joined by
`/`-separator glue, with optional blank-or-separator lines before the first
statement and after the last. -/
def buildBatchInput (lead : List Str) (q1 : Str) (rest : List (List Str × Str))
    (trail : List Str) : List Str :=
  lead ++ splitOnNL q1 ++ rest.flatMap (fun p => p.1 ++ splitOnNL p.2) ++ trail

/-- A statement none of whose lines is a full-line `--` comment.  part_002's
`processCommands` diverts such lines to the comment buffer, so only
statements with this property pass through its splitter unchanged. -/
abbrev NoCommentLines (q : Str) : Prop :=
  ∀ l ∈ splitOnNL q, isPre ['-', '-'] (trimSpace l) = false

/-- Glue accepted between two statements by `processCommands` without side
effects: blanks, one separator, blanks.  (Unlike `processLines`,
`processCommands` emits the raw buffer whenever it is non-empty, so a second
separator after blank lines would emit a whitespace-only query; the glue is
therefore restricted to exactly one separator.) -/
abbrev PCGlue (g : List Str) : Prop :=
  ∃ b s b2, g = b ++ s :: b2 ∧ (∀ l ∈ b, AllSpace l) ∧
    isCommandSeparator s = true ∧ ∀ l ∈ b2, AllSpace l

/-- End-of-input flush of `processCommands` (part_002, lines 390-397):
`processCommandsPairs lines = pcFinalize (lines.foldl pcStep ([], [], []))`. -/
def pcFinalize (st : Str × Str × List (Str × Str)) : List (Str × Str) :=
  if st.1.isEmpty then st.2.2 else st.2.2 ++ [(st.1, st.2.1)]

/-! ## Whitespace and trimming lemmas -/

theorem dropWhile_append_all {p : Char → Bool} {a b : Str}
    (h : ∀ c ∈ a, p c = true) : (a ++ b).dropWhile p = b.dropWhile p := by
  induction a with
  | nil => rfl
  | cons c cs ih =>
    simp only [List.cons_append, List.dropWhile_cons, h c (List.mem_cons_self _ _)]
    exact ih fun x hx => h x (List.mem_cons_of_mem _ hx)

theorem dropWhile_append_if (p : Char → Bool) (a b : Str) :
    (a ++ b).dropWhile p =
      if (a.dropWhile p).isEmpty then b.dropWhile p else a.dropWhile p ++ b := by
  induction a with
  | nil => simp
  | cons c cs ih =>
    by_cases hp : p c = true
    · simpa [List.dropWhile_cons, hp] using ih
    · simp [List.dropWhile_cons, hp]

theorem allSpace_trimLeft {w : Str} (h : AllSpace w) : trimLeftWS w = [] := by
  have := @dropWhile_append_all isSpace w [] h
  simpa [trimLeftWS] using this

theorem allSpace_trimSpace {w : Str} (h : AllSpace w) : trimSpace w = [] := by
  rw [trimSpace, allSpace_trimLeft h]; rfl

theorem trimRightWS_append_space {x w : Str} (h : AllSpace w) :
    trimRightWS (x ++ w) = trimRightWS x := by
  unfold trimRightWS
  rw [List.reverse_append, dropWhile_append_all]
  intro c hc
  exact h c (List.mem_reverse.mp hc)

theorem trimSpace_space_append {w x : Str} (h : AllSpace w) :
    trimSpace (w ++ x) = trimSpace x := by
  unfold trimSpace trimLeftWS
  rw [dropWhile_append_all h]

theorem trimSpace_append_space {x w : Str} (h : AllSpace w) :
    trimSpace (x ++ w) = trimSpace x := by
  unfold trimSpace trimLeftWS
  rw [dropWhile_append_if]
  by_cases he : (x.dropWhile isSpace).isEmpty
  · have hx : x.dropWhile isSpace = [] := by
      cases hd : x.dropWhile isSpace with
      | nil => rfl
      | cons a l => rw [hd] at he; simp at he
    have hw : List.dropWhile isSpace w = [] := allSpace_trimLeft h
    rw [if_pos he, hx, hw]
  · rw [if_neg he]
    exact trimRightWS_append_space h

theorem trimSpace_length_le (s : Str) : (trimSpace s).length ≤ s.length := by
  have h2 := (@List.dropWhile_sublist _ ((s.dropWhile isSpace).reverse) isSpace).length_le
  have h3 := (@List.dropWhile_sublist _ s isSpace).length_le
  simp only [trimSpace, trimRightWS, trimLeftWS, List.length_reverse] at *
  omega

theorem dropWhile_length_eq {p : Char → Bool} {l : Str}
    (h : (l.dropWhile p).length = l.length) : l.dropWhile p = l := by
  induction l with
  | nil => rfl
  | cons c cs _ =>
    by_cases hp : p c = true
    · exfalso
      have hle := (@List.dropWhile_sublist _ cs p).length_le
      rw [List.dropWhile_cons, if_pos hp] at h
      simp only [List.length_cons] at h
      omega
    · rw [List.dropWhile_cons, if_neg hp]

theorem trim_parts_of_eq {q : Str} (h : trimSpace q = q) :
    trimLeftWS q = q ∧ trimRightWS q = q := by
  have hl1 : (trimSpace q).length = q.length := by rw [h]
  have hl2 := (@List.dropWhile_sublist _ ((q.dropWhile isSpace).reverse) isSpace).length_le
  have hl3 := (@List.dropWhile_sublist _ q isSpace).length_le
  have hlen : (trimLeftWS q).length = q.length := by
    simp only [trimSpace, trimRightWS, trimLeftWS, List.length_reverse] at *
    omega
  have hleft : trimLeftWS q = q := dropWhile_length_eq hlen
  refine ⟨hleft, ?_⟩
  have := h
  rw [trimSpace, hleft] at this
  exact this

theorem head_not_space_of_trimLeft {q : Str} {c : Char} {cs : Str}
    (h : trimLeftWS q = q) (he : q = c :: cs) : isSpace c = false := by
  subst he
  by_contra hc
  have hc' : isSpace c = true := by
    cases hi : isSpace c
    · exact absurd hi hc
    · rfl
  unfold trimLeftWS at h
  rw [List.dropWhile_cons, if_pos hc'] at h
  have hle := (@List.dropWhile_sublist _ cs isSpace).length_le
  have : (c :: cs).length = cs.length + 1 := rfl
  rw [h] at hle
  omega

theorem trimRight_isPre (y : Str) : trimRightWS y <+: y := by
  obtain ⟨t, ht⟩ : y.reverse.dropWhile isSpace <:+ y.reverse :=
    List.dropWhile_suffix _
  refine ⟨t.reverse, ?_⟩
  show (y.reverse.dropWhile isSpace).reverse ++ t.reverse = y
  rw [← List.reverse_append, ht, List.reverse_reverse]

theorem trimSpace_idem (s : Str) : trimSpace (trimSpace s) = trimSpace s := by
  set y := trimLeftWS s with hy
  have hyl : trimLeftWS y = y := by
    simp only [trimLeftWS, hy, List.dropWhile_idempotent]
  set z := trimRightWS y with hz
  have hzl : trimLeftWS z = z := by
    rcases hzc : z with _ | ⟨d, ds⟩
    · rfl
    · rcases (trimRight_isPre y) with ⟨t, ht⟩
      rw [← hz] at ht
      rw [hzc] at ht
      have hyd : y = d :: (ds ++ t) := by rw [← ht]; rfl
      have hd := head_not_space_of_trimLeft hyl hyd
      simp [trimLeftWS, List.dropWhile_cons, hd]
  have hzr : trimRightWS z = z := by
    simp only [trimRightWS, hz, List.reverse_reverse, List.dropWhile_idempotent]
  show trimRightWS (trimLeftWS z) = z
  rw [hzl, hzr]

/-! ## Splitting and joining lines -/

theorem splitOnNL_ne_nil (s : Str) : splitOnNL s ≠ [] := by
  cases s with
  | nil => simp [splitOnNL]
  | cons c rest =>
    by_cases hc : c = '\n'
    · simp [splitOnNL, hc]
    · simp only [splitOnNL, if_neg hc]
      cases splitOnNL rest <;> simp

theorem joinNL_cons (l : Str) (ls : List Str) :
    joinNL (l :: ls) = l ++ ls.flatMap (fun x => '\n' :: x) := by
  induction ls generalizing l with
  | nil => simp [joinNL]
  | cons m ms ih =>
    have h1 : joinNL (l :: m :: ms) = l ++ '\n' :: joinNL (m :: ms) := rfl
    rw [h1, ih]
    simp

theorem joinNL_splitOnNL (s : Str) : joinNL (splitOnNL s) = s := by
  induction s with
  | nil => rfl
  | cons c rest ih =>
    rcases hr : splitOnNL rest with _ | ⟨l, ls⟩
    · exact absurd hr (splitOnNL_ne_nil rest)
    · rw [hr] at ih
      by_cases hc : c = '\n'
      · subst hc
        have h1 : splitOnNL ('\n' :: rest) = [] :: l :: ls := by
          simp [splitOnNL, hr]
        rw [h1]
        have h2 : joinNL ([] :: l :: ls) = '\n' :: joinNL (l :: ls) := rfl
        rw [h2, ih]
      · have h1 : splitOnNL (c :: rest) = (c :: l) :: ls := by
          simp [splitOnNL, if_neg hc, hr]
        rw [h1, joinNL_cons]
        rw [joinNL_cons] at ih
        simpa using ih

theorem splitOnNL_append (x y : Str) :
    splitOnNL (x ++ '\n' :: y) = splitOnNL x ++ splitOnNL y := by
  induction x with
  | nil => simp [splitOnNL]
  | cons c cs ih =>
    by_cases hc : c = '\n'
    · simp [splitOnNL, hc, ih]
    · rcases hr : splitOnNL cs with _ | ⟨l, ls⟩
      · exact absurd hr (splitOnNL_ne_nil cs)
      · have h1 : splitOnNL (cs ++ '\n' :: y) = l :: (ls ++ splitOnNL y) := by
          rw [ih, hr]; rfl
        simp only [List.cons_append, splitOnNL, if_neg hc, List.append_eq, h1, hr]

theorem splitOnNL_no_nl {l : Str} (h : '\n' ∉ l) : splitOnNL l = [l] := by
  induction l with
  | nil => rfl
  | cons c cs ih =>
    have hc : ¬c = '\n' := fun he => h (he ▸ List.mem_cons_self _ _)
    simp only [splitOnNL, if_neg hc]
    rw [ih fun hm => h (List.mem_cons_of_mem _ hm)]

theorem splitOnNL_first_ne_nil {q : Str} (ht : trimSpace q = q) (hne : q ≠ []) :
    ∃ l ls, splitOnNL q = l :: ls ∧ l ≠ [] := by
  rcases hq : q with _ | ⟨c, cs⟩
  · exact absurd hq hne
  · have hl := (trim_parts_of_eq ht).1
    have hns := head_not_space_of_trimLeft hl hq
    have hc : ¬c = '\n' := by
      intro he
      rw [he] at hns
      simp [isSpace] at hns
    refine ⟨?_, ?_, ?_, ?_⟩
    case _ =>
      exact c :: (splitOnNL cs).headI
    case _ =>
      exact (splitOnNL cs).tail
    · simp only [splitOnNL, if_neg hc]
      rcases hr : splitOnNL cs with _ | ⟨l, ls⟩
      · exact absurd hr (splitOnNL_ne_nil cs)
      · simp [hr]
    · simp

/-! ## `replaceAll` lemmas -/

theorem replaceAllAux_nil (o : Char) (os new : Str) (fuel : Nat) :
    replaceAllAux o os new fuel [] = [] := by
  cases fuel <;> rfl

theorem replaceAllAux_fuel (o : Char) (os new : Str) :
    ∀ f₁ f₂ : Nat, ∀ s : Str, s.length ≤ f₁ → s.length ≤ f₂ →
      replaceAllAux o os new f₁ s = replaceAllAux o os new f₂ s := by
  intro f₁
  induction f₁ with
  | zero =>
    intro f₂ s h1 _
    have hs : s = [] := List.length_eq_zero.mp (Nat.le_zero.mp h1)
    subst hs
    rw [replaceAllAux_nil, replaceAllAux_nil]
  | succ g ih =>
    intro f₂ s h1 h2
    rcases s with _ | ⟨c, rest⟩
    · rw [replaceAllAux_nil, replaceAllAux_nil]
    · rcases f₂ with _ | g₂
      · simp at h2
      · show (if isPre (o :: os) (c :: rest) then
            new ++ replaceAllAux o os new g (rest.drop os.length)
          else c :: replaceAllAux o os new g rest) =
          (if isPre (o :: os) (c :: rest) then
            new ++ replaceAllAux o os new g₂ (rest.drop os.length)
          else c :: replaceAllAux o os new g₂ rest)
        simp only [List.length_cons] at h1 h2
        by_cases hp : isPre (o :: os) (c :: rest) = true
        · rw [if_pos hp, if_pos hp]
          have hd : (rest.drop os.length).length ≤ rest.length := by
            simp [List.length_drop]
          exact congrArg (new ++ ·) (ih g₂ _ (by omega) (by omega))
        · rw [if_neg (by simp [hp]), if_neg (by simp [hp])]
          exact congrArg (c :: ·) (ih g₂ _ (by omega) (by omega))

theorem replaceAll_cons (c : Char) (rest : Str) (o : Char) (os new : Str) :
    replaceAll (c :: rest) (o :: os) new =
      if isPre (o :: os) (c :: rest) then
        new ++ replaceAll (rest.drop os.length) (o :: os) new
      else c :: replaceAll rest (o :: os) new := by
  show replaceAllAux o os new (rest.length + 1) (c :: rest) = _
  show (if isPre (o :: os) (c :: rest) then
      new ++ replaceAllAux o os new rest.length (rest.drop os.length)
    else c :: replaceAllAux o os new rest.length rest) = _
  by_cases hp : isPre (o :: os) (c :: rest) = true
  · rw [if_pos hp, if_pos hp]
    have hd : (rest.drop os.length).length ≤ rest.length := by
      simp [List.length_drop]
    rw [replaceAllAux_fuel o os new rest.length (rest.drop os.length).length
      (rest.drop os.length) hd (Nat.le_refl _)]
    rfl
  · rw [if_neg (by simp [hp]), if_neg (by simp [hp])]
    rfl

theorem replaceAll_not_sub {s pat r : Str} (h : hasSub s pat = false) :
    replaceAll s pat r = s := by
  rcases pat with _ | ⟨o, os⟩
  · rfl
  · induction s with
    | nil => rfl
    | cons c rest ih =>
      rw [hasSub] at h
      have h1 : isPre (o :: os) (c :: rest) = false := by
        cases hi : isPre (o :: os) (c :: rest)
        · rfl
        · rw [hi] at h; simp at h
      have h2 : hasSub rest (o :: os) = false := by
        cases hi : hasSub rest (o :: os)
        · rfl
        · rw [hi] at h; simp at h
      rw [replaceAll_cons, if_neg (by simp [h1]), ih h2]

theorem replaceAll_one_pat_cons (c : Char) (v : Str) (o : Char) (new : Str) :
    replaceAll (c :: v) [o] new =
      if c = o then new ++ replaceAll v [o] new else c :: replaceAll v [o] new := by
  rw [replaceAll_cons]
  by_cases hc : c = o
  · subst hc
    rw [if_pos (by simp [isPre]), if_pos rfl]
    simp
  · rw [if_neg (by simp [isPre]; intro he; exact absurd he.symm hc), if_neg hc]

theorem replaceAll_single_cons (c : Char) (v : Str) (o r : Char) :
    replaceAll (c :: v) [o] [r] =
      if c = o then r :: replaceAll v [o] [r] else c :: replaceAll v [o] [r] := by
  rw [replaceAll_one_pat_cons]
  by_cases hc : c = o
  · rw [if_pos hc, if_pos hc]; rfl
  · rw [if_neg hc, if_neg hc]

theorem replaceAll_single_length (s : Str) (o r : Char) :
    (replaceAll s [o] [r]).length = s.length := by
  induction s with
  | nil => rfl
  | cons c v ih =>
    rw [replaceAll_single_cons]
    by_cases hc : c = o
    · rw [if_pos hc]; simp [ih]
    · rw [if_neg hc]; simp [ih]

theorem mem_replaceAll_single {s : Str} {o r c : Char}
    (h : c ∈ replaceAll s [o] [r]) : c = r ∨ (c ∈ s ∧ c ≠ o) := by
  induction s with
  | nil => simp [replaceAll, replaceAllAux] at h
  | cons a v ih =>
    rw [replaceAll_single_cons] at h
    by_cases ha : a = o
    · rw [if_pos ha] at h
      rcases List.mem_cons.mp h with he | hm
      · exact Or.inl he
      · rcases ih hm with he | ⟨hm', hne⟩
        · exact Or.inl he
        · exact Or.inr ⟨List.mem_cons_of_mem _ hm', hne⟩
    · rw [if_neg ha] at h
      rcases List.mem_cons.mp h with he | hm
      · subst he
        exact Or.inr ⟨List.mem_cons_self _ _, ha⟩
      · rcases ih hm with he | ⟨hm', hne⟩
        · exact Or.inl he
        · exact Or.inr ⟨List.mem_cons_of_mem _ hm', hne⟩

theorem not_mem_replaceAll_self {s : Str} {o r : Char} (hor : o ≠ r) :
    o ∉ replaceAll s [o] [r] := by
  intro h
  rcases mem_replaceAll_single h with he | ⟨_, hne⟩
  · exact hor he
  · exact hne rfl

theorem not_mem_replaceAll_of {s : Str} {o r c : Char} (hs : c ∉ s) (hr : c ≠ r) :
    c ∉ replaceAll s [o] [r] := by
  intro h
  rcases mem_replaceAll_single h with he | ⟨hm, _⟩
  · exact hr he
  · exact hs hm

/-! ## `cleanQuery` lemmas -/

theorem cleanQueryLoop_spec :
    ∀ fuel : Nat, ∀ t : Str, t.length ≤ fuel → trimSpace t = t →
      trimSpace (cleanQueryLoop fuel t) = cleanQueryLoop fuel t ∧
        isPre [';'] (cleanQueryLoop fuel t).reverse = false := by
  intro fuel
  induction fuel with
  | zero =>
    intro t h1 h2
    have ht : t = [] := List.length_eq_zero.mp (Nat.le_zero.mp h1)
    subst ht
    exact ⟨rfl, rfl⟩
  | succ g ih =>
    intro t h1 h2
    have hstep : cleanQueryLoop (g + 1) t =
        if isPre [';'] t.reverse then
          cleanQueryLoop g (trimSpace (t.take (t.length - 1)))
        else t := rfl
    by_cases hsemi : isPre [';'] t.reverse = true
    · rw [hstep, if_pos hsemi]
      have hne : t ≠ [] := by
        intro he
        rw [he] at hsemi
        simp [isPre] at hsemi
      have hlen : (trimSpace (t.take (t.length - 1))).length ≤ g := by
        have ha := trimSpace_length_le (t.take (t.length - 1))
        have hb : (t.take (t.length - 1)).length ≤ t.length - 1 := by simp
        have hc : 0 < t.length := List.length_pos.mpr hne
        omega
      exact ih _ hlen (trimSpace_idem _)
    · rw [hstep, if_neg hsemi]
      exact ⟨h2, by simpa using hsemi⟩

theorem cleanQuery_clean (q : Str) :
    trimSpace (cleanQuery q) = cleanQuery q ∧
      isPre [';'] (cleanQuery q).reverse = false :=
  cleanQueryLoop_spec _ _ (Nat.le_refl _) (trimSpace_idem q)

theorem endsSemi_false_of_cleanup {q : Str} (h : cleanupStmt q = q) (hne : q ≠ []) :
    isPre [';'] q.reverse = false := by
  cases hsemi : isPre [';'] q.reverse
  · rfl
  · exfalso
    have hts : trimSuffixStr q [';'] = q.take (q.length - 1) := by
      rw [trimSuffixStr,
        if_pos (show isPre ([';'] : Str).reverse q.reverse = true from hsemi)]
      rfl
    have hlen : (cleanupStmt q).length ≤ q.length - 1 := by
      rw [cleanupStmt, hts]
      have h1 := trimSpace_length_le (q.take (q.length - 1))
      have h2 : (q.take (q.length - 1)).length ≤ q.length - 1 := by simp
      omega
    have hq : 0 < q.length := List.length_pos.mpr hne
    rw [h] at hlen
    omega

theorem cleanQuery_of_trim {r q : Str} (ht : trimSpace r = q)
    (hs : isPre [';'] q.reverse = false) : cleanQuery r = q := by
  rw [cleanQuery, ht]
  rcases q with _ | ⟨c, cs⟩
  · rfl
  · have hstep : cleanQueryLoop (c :: cs).length (c :: cs) =
        if isPre [';'] (c :: cs).reverse then
          cleanQueryLoop cs.length
            (trimSpace ((c :: cs).take ((c :: cs).length - 1)))
        else c :: cs := rfl
    rw [hstep, if_neg (by rw [hs]; simp)]

/-! ## Splitter step lemmas -/

theorem splitStep_sep_skip {buf : Str} {qs : List Str} {l : Str}
    (hsep : isCommandSeparator l = true) (hbe : buf.isEmpty = true) :
    splitStep (buf, qs) l = (buf, qs) := by
  simp [splitStep, hsep, hbe]

theorem splitStep_sep_emit {buf : Str} {qs : List Str} {l : Str}
    (hsep : isCommandSeparator l = true) (hbe : buf.isEmpty = false) :
    splitStep (buf, qs) l =
      ([], if (trimSpace buf).isEmpty then qs else qs ++ [trimSpace buf]) := by
  simp [splitStep, hsep, hbe]

theorem splitStep_line {buf : Str} {qs : List Str} {l : Str}
    (hns : isCommandSeparator l = false) :
    splitStep (buf, qs) l = (if buf.isEmpty then l else buf ++ '\n' :: l, qs) := by
  simp [splitStep, hns]

theorem allSpace_not_sep {l : Str} (h : AllSpace l) :
    isCommandSeparator l = false := by
  simp [isCommandSeparator, allSpace_trimSpace h]

theorem isEmpty_false_of_ne {buf : Str} (h : buf ≠ []) : buf.isEmpty = false := by
  cases buf with
  | nil => exact absurd rfl h
  | cons _ _ => rfl

theorem allSpace_append_nl {buf l : Str} (hbuf : AllSpace buf) (hl : AllSpace l) :
    AllSpace (buf ++ '\n' :: l) := by
  intro c hc
  rcases List.mem_append.mp hc with hm | hm
  · exact hbuf c hm
  · rcases List.mem_cons.mp hm with he | hm'
    · subst he; rfl
    · exact hl c hm'

theorem foldl_glue_space :
    ∀ g : List Str, (∀ l ∈ g, GlueLine l) → ∀ {buf : Str} {qs : List Str},
      AllSpace buf →
      ∃ buf', List.foldl splitStep (buf, qs) g = (buf', qs) ∧ AllSpace buf' := by
  intro g
  induction g with
  | nil => exact fun _ _ _ h => ⟨_, rfl, h⟩
  | cons l g' ih =>
    intro hg buf qs hbuf
    have hg' : ∀ x ∈ g', GlueLine x := fun x hx => hg x (List.mem_cons_of_mem _ hx)
    rw [List.foldl_cons]
    rcases hg l (List.mem_cons_self _ _) with hblank | hsep
    · rw [splitStep_line (allSpace_not_sep hblank)]
      by_cases hbe : buf.isEmpty = true
      · rw [if_pos hbe]
        exact ih hg' hblank
      · rw [if_neg hbe]
        exact ih hg' (allSpace_append_nl hbuf hblank)
    · by_cases hbe : buf.isEmpty = true
      · rw [splitStep_sep_skip hsep hbe]
        exact ih hg' hbuf
      · rw [splitStep_sep_emit hsep (by simpa using hbe)]
        have hq : (trimSpace buf).isEmpty = true := by
          rw [allSpace_trimSpace hbuf]; rfl
        rw [if_pos hq]
        exact ih hg' (fun c hc => absurd hc (List.not_mem_nil c))

theorem foldl_lines_append :
    ∀ ls : List Str, (∀ l ∈ ls, isCommandSeparator l = false) →
      ∀ {buf : Str} {qs : List Str}, buf ≠ [] →
      List.foldl splitStep (buf, qs) ls =
        (buf ++ ls.flatMap (fun l => '\n' :: l), qs) := by
  intro ls
  induction ls with
  | nil => intro _ buf qs _; simp
  | cons l ls' ih =>
    intro hls buf qs hbuf
    rw [List.foldl_cons, splitStep_line (hls l (List.mem_cons_self _ _))]
    rw [if_neg (by simp [isEmpty_false_of_ne hbuf])]
    rw [ih (fun x hx => hls x (List.mem_cons_of_mem _ hx)) (by simp)]
    simp

theorem foldl_stmt {q : Str} (hq : CleanStmt q) :
    ∀ {buf : Str} {qs : List Str}, AllSpace buf →
      ∃ buf', List.foldl splitStep (buf, qs) (splitOnNL q) = (buf', qs) ∧
        trimSpace buf' = q ∧ buf' ≠ [] := by
  obtain ⟨hqt, hqne, hqlines, _⟩ := hq
  obtain ⟨l, ls, hsplit, hlne⟩ := splitOnNL_first_ne_nil hqt hqne
  intro buf qs hbuf
  have hlsep : isCommandSeparator l = false :=
    hqlines l (hsplit ▸ List.mem_cons_self _ _)
  have hlssep : ∀ x ∈ ls, isCommandSeparator x = false :=
    fun x hx => hqlines x (hsplit ▸ List.mem_cons_of_mem _ hx)
  have hjoin : l ++ ls.flatMap (fun x => '\n' :: x) = q := by
    rw [← joinNL_cons, ← hsplit, joinNL_splitOnNL]
  rw [hsplit, List.foldl_cons, splitStep_line hlsep]
  by_cases hbe : buf.isEmpty = true
  · rw [if_pos hbe]
    rw [foldl_lines_append ls hlssep hlne]
    exact ⟨_, rfl, by rw [hjoin]; exact ⟨hqt, hjoin ▸ hqne⟩⟩
  · rw [if_neg hbe]
    rw [foldl_lines_append ls hlssep (by simp)]
    refine ⟨_, rfl, ?_, by simp⟩
    have hassoc : (buf ++ '\n' :: l) ++ ls.flatMap (fun x => '\n' :: x) =
        (buf ++ ['\n']) ++ q := by
      rw [← hjoin]; simp
    rw [hassoc, trimSpace_space_append, hqt]
    intro c hc
    rcases List.mem_append.mp hc with hm | hm
    · exact hbuf c hm
    · rcases List.mem_cons.mp hm with he | hm'
      · subst he; rfl
      · exact absurd hm' (List.not_mem_nil c)

theorem foldl_glue_emit :
    ∀ g : List Str, SepGlue g → ∀ {buf : Str} {qs : List Str} {q : Str},
      buf ≠ [] → trimSpace buf = q → q ≠ [] →
      ∃ buf', List.foldl splitStep (buf, qs) g = (buf', qs ++ [q]) ∧
        AllSpace buf' := by
  intro g
  induction g with
  | nil =>
    intro hg
    exact absurd hg.2 (by simp)
  | cons l g' ih =>
    intro hg buf qs q hbuf htrim hqne
    obtain ⟨hall, hex⟩ := hg
    have hall' : ∀ x ∈ g', GlueLine x := fun x hx => hall x (List.mem_cons_of_mem _ hx)
    rw [List.foldl_cons]
    rcases hall l (List.mem_cons_self _ _) with hblank | hsep
    · -- blank line: buffer grows, trimmed content unchanged
      rw [splitStep_line (allSpace_not_sep hblank)]
      rw [if_neg (by simp [isEmpty_false_of_ne hbuf])]
      have hsep' : ∃ x ∈ g', isCommandSeparator x = true := by
        obtain ⟨x, hx, hxsep⟩ := hex
        rcases List.mem_cons.mp hx with he | hm
        · subst he
          rw [allSpace_not_sep hblank] at hxsep
          exact absurd hxsep (by simp)
        · exact ⟨x, hm, hxsep⟩
      have htrim' : trimSpace (buf ++ '\n' :: l) = q := by
        have : buf ++ '\n' :: l = buf ++ ('\n' :: l) := rfl
        rw [this, trimSpace_append_space, htrim]
        intro c hc
        rcases List.mem_cons.mp hc with he | hm
        · subst he; rfl
        · exact hblank c hm
      exact ih ⟨hall', hsep'⟩ (by simp) htrim' hqne
    · -- separator: the pending statement is emitted
      rw [splitStep_sep_emit hsep (isEmpty_false_of_ne hbuf)]
      rw [htrim, if_neg (by simp [isEmpty_false_of_ne hqne])]
      exact foldl_glue_space g' hall' (fun c hc => absurd hc (List.not_mem_nil c))

theorem finalize_space {buf : Str} {qs : List Str} (h : AllSpace buf) :
    finalizeSplit (buf, qs) = qs := by
  by_cases hbe : buf.isEmpty = true
  · simp [finalizeSplit, hbe]
  · have hq : (trimSpace buf).isEmpty = true := by rw [allSpace_trimSpace h]; rfl
    simp [finalizeSplit, hbe, hq]

theorem finalize_emit {buf : Str} {qs : List Str} {q : Str}
    (hbuf : buf ≠ []) (htrim : trimSpace buf = q) (hqne : q ≠ []) :
    finalizeSplit (buf, qs) = qs ++ [q] := by
  simp [finalizeSplit, isEmpty_false_of_ne hbuf, htrim, isEmpty_false_of_ne hqne]

theorem foldl_glue_finalize :
    ∀ g : List Str, (∀ l ∈ g, GlueLine l) → ∀ {buf : Str} {qs : List Str} {q : Str},
      buf ≠ [] → trimSpace buf = q → q ≠ [] →
      finalizeSplit (List.foldl splitStep (buf, qs) g) = qs ++ [q] := by
  intro g
  induction g with
  | nil =>
    intro _ buf qs q hbuf htrim hqne
    exact finalize_emit hbuf htrim hqne
  | cons l g' ih =>
    intro hg buf qs q hbuf htrim hqne
    have hg' : ∀ x ∈ g', GlueLine x := fun x hx => hg x (List.mem_cons_of_mem _ hx)
    rw [List.foldl_cons]
    rcases hg l (List.mem_cons_self _ _) with hblank | hsep
    · rw [splitStep_line (allSpace_not_sep hblank)]
      rw [if_neg (by simp [isEmpty_false_of_ne hbuf])]
      have htrim' : trimSpace (buf ++ '\n' :: l) = q := by
        have : buf ++ '\n' :: l = buf ++ ('\n' :: l) := rfl
        rw [this, trimSpace_append_space, htrim]
        intro c hc
        rcases List.mem_cons.mp hc with he | hm
        · subst he; rfl
        · exact hblank c hm
      exact ih hg' (by simp) htrim' hqne
    · rw [splitStep_sep_emit hsep (isEmpty_false_of_ne hbuf)]
      rw [htrim, if_neg (by simp [isEmpty_false_of_ne hqne])]
      obtain ⟨buf', hfold, hsp⟩ :=
        @foldl_glue_space g' hg' [] (qs ++ [q])
          (fun c hc => absurd hc (List.not_mem_nil c))
      rw [hfold]
      exact finalize_space hsp

theorem foldl_segments :
    ∀ rest : List (List Str × Str),
      (∀ p ∈ rest, SepGlue p.1 ∧ CleanStmt p.2) →
      ∀ trail : List Str, (∀ l ∈ trail, GlueLine l) →
      ∀ {buf : Str} {qs : List Str} {qprev : Str},
        buf ≠ [] → trimSpace buf = qprev → qprev ≠ [] →
        finalizeSplit (List.foldl splitStep (buf, qs)
            (rest.flatMap (fun p => p.1 ++ splitOnNL p.2) ++ trail)) =
          qs ++ qprev :: rest.map (·.2) := by
  intro rest
  induction rest with
  | nil =>
    intro _ trail htrail buf qs qprev hbuf htrim hqne
    simpa using foldl_glue_finalize trail htrail hbuf htrim hqne
  | cons p rest' ih =>
    intro hrest trail htrail buf qs qprev hbuf htrim hqne
    obtain ⟨hglue, hclean⟩ := hrest p (List.mem_cons_self _ _)
    have hrest' : ∀ x ∈ rest', SepGlue x.1 ∧ CleanStmt x.2 :=
      fun x hx => hrest x (List.mem_cons_of_mem _ hx)
    have hform : (p :: rest').flatMap (fun x => x.1 ++ splitOnNL x.2) ++ trail =
        p.1 ++ (splitOnNL p.2 ++
          (rest'.flatMap (fun x => x.1 ++ splitOnNL x.2) ++ trail)) := by
      simp
    rw [hform, List.foldl_append]
    obtain ⟨buf₁, hfold₁, hsp₁⟩ := foldl_glue_emit p.1 hglue hbuf htrim hqne
    rw [hfold₁, List.foldl_append]
    obtain ⟨buf₂, hfold₂, htrim₂, hne₂⟩ := foldl_stmt hclean hsp₁
    rw [hfold₂]
    rw [ih hrest' trail htrail hne₂ htrim₂ hclean.2.1]
    simp

theorem cleanup_keep :
    ∀ l : List Str, (∀ q ∈ l, cleanupStmt q = q ∧ q ≠ []) →
      ((l.map cleanupStmt).filter fun q => !q.isEmpty) = l := by
  intro l
  induction l with
  | nil => intro _; rfl
  | cons q l' ih =>
    intro h
    obtain ⟨hq, hne⟩ := h q (List.mem_cons_self _ _)
    rw [List.map_cons, List.filter_cons, hq]
    rw [if_pos (by simp [isEmpty_false_of_ne hne])]
    rw [ih fun x hx => h x (List.mem_cons_of_mem _ hx)]

/-! ## CSV round-trip lemmas -/

theorem csv_unq_end :
    ∀ v : Str, (∀ c ∈ v, ¬c = ',' ∧ ¬c = '"') → ∀ cur : Str, ∀ acc : List Str,
      splitCSVAux false cur acc v = acc ++ [cur.reverse ++ v] := by
  intro v
  induction v with
  | nil => intro _ cur acc; simp [splitCSVAux]
  | cons c v' ih =>
    intro h cur acc
    obtain ⟨hc1, hc2⟩ := h c (List.mem_cons_self _ _)
    rw [show splitCSVAux false cur acc (c :: v') =
        if c = ',' then splitCSVAux false [] (acc ++ [cur.reverse]) v'
        else if c = '"' then splitCSVAux true cur acc v'
        else splitCSVAux false (c :: cur) acc v' from rfl]
    rw [if_neg hc1, if_neg hc2]
    rw [ih (fun x hx => h x (List.mem_cons_of_mem _ hx)) (c :: cur) acc]
    simp

theorem csv_unq_comma :
    ∀ v : Str, (∀ c ∈ v, ¬c = ',' ∧ ¬c = '"') → ∀ cur r' : Str, ∀ acc : List Str,
      splitCSVAux false cur acc (v ++ ',' :: r') =
        splitCSVAux false [] (acc ++ [cur.reverse ++ v]) r' := by
  intro v
  induction v with
  | nil =>
    intro _ cur r' acc
    rw [show ([] : Str) ++ ',' :: r' = ',' :: r' from rfl]
    rw [show splitCSVAux false cur acc (',' :: r') =
        splitCSVAux false [] (acc ++ [cur.reverse]) r' from rfl]
    simp
  | cons c v' ih =>
    intro h cur r' acc
    obtain ⟨hc1, hc2⟩ := h c (List.mem_cons_self _ _)
    rw [show (c :: v') ++ ',' :: r' = c :: (v' ++ ',' :: r') from rfl]
    rw [show splitCSVAux false cur acc (c :: (v' ++ ',' :: r')) =
        if c = ',' then splitCSVAux false [] (acc ++ [cur.reverse]) (v' ++ ',' :: r')
        else if c = '"' then splitCSVAux true cur acc (v' ++ ',' :: r')
        else splitCSVAux false (c :: cur) acc (v' ++ ',' :: r') from rfl]
    rw [if_neg hc1, if_neg hc2]
    rw [ih (fun x hx => h x (List.mem_cons_of_mem _ hx)) (c :: cur) r' acc]
    simp

theorem csv_q_exit :
    ∀ v : Str, ∀ cur r : Str, ∀ acc : List Str,
      (r = [] ∨ ∃ r', r = ',' :: r') →
      splitCSVAux true cur acc (replaceAll v ['"'] ['"', '"'] ++ '"' :: r) =
        splitCSVAux false (v.reverse ++ cur) acc r := by
  intro v
  induction v with
  | nil =>
    intro cur r acc hr
    rw [show replaceAll [] ['"'] ['"', '"'] = [] from rfl]
    rcases hr with he | ⟨r', he⟩
    · subst he; simp [splitCSVAux]
    · subst he
      simp [splitCSVAux]
  | cons c v' ih =>
    intro cur r acc hr
    rw [replaceAll_one_pat_cons]
    by_cases hc : c = '"'
    · subst hc
      rw [if_pos rfl]
      rw [show (['"', '"'] ++ replaceAll v' ['"'] ['"', '"']) ++ '"' :: r =
          '"' :: '"' :: (replaceAll v' ['"'] ['"', '"'] ++ '"' :: r) from by simp]
      rw [show splitCSVAux true cur acc
          ('"' :: '"' :: (replaceAll v' ['"'] ['"', '"'] ++ '"' :: r)) =
          splitCSVAux true ('"' :: cur) acc
            (replaceAll v' ['"'] ['"', '"'] ++ '"' :: r) from rfl]
      rw [ih ('"' :: cur) r acc hr]
      simp
    · rw [if_neg hc]
      rw [show (c :: replaceAll v' ['"'] ['"', '"']) ++ '"' :: r =
          c :: (replaceAll v' ['"'] ['"', '"'] ++ '"' :: r) from rfl]
      have hstep : splitCSVAux true cur acc
          (c :: (replaceAll v' ['"'] ['"', '"'] ++ '"' :: r)) =
          splitCSVAux true (c :: cur) acc
            (replaceAll v' ['"'] ['"', '"'] ++ '"' :: r) := by
        simp [splitCSVAux, hc]
      rw [hstep, ih (c :: cur) r acc hr]
      simp

theorem csv_field_end (v : Str) (acc : List Str) :
    splitCSVAux false [] acc (csvField v) = acc ++ [v] := by
  unfold csvField
  by_cases hq : v.any (fun c => c == ',' || c == '"' || c == '\n') = true
  · rw [if_pos hq]
    rw [show ('"' :: (replaceAll v ['"'] ['"', '"'] ++ ['"'])) =
        '"' :: (replaceAll v ['"'] ['"', '"'] ++ '"' :: []) from rfl]
    rw [show splitCSVAux false [] acc
        ('"' :: (replaceAll v ['"'] ['"', '"'] ++ '"' :: [])) =
        splitCSVAux true [] acc (replaceAll v ['"'] ['"', '"'] ++ '"' :: []) from rfl]
    rw [csv_q_exit v [] [] acc (Or.inl rfl)]
    simp [splitCSVAux]
  · rw [if_neg hq]
    have hf : (v.any fun c => c == ',' || c == '"' || c == '\n') = false := by
      cases ha : (v.any fun c => c == ',' || c == '"' || c == '\n')
      · rfl
      · exact absurd ha hq
    have h : ∀ c ∈ v, ¬c = ',' ∧ ¬c = '"' := by
      intro c hc
      have hb := List.any_eq_false.mp hf c hc
      constructor
      · intro he; subst he; simp at hb
      · intro he; subst he; simp at hb
    rw [csv_unq_end v h [] acc]
    simp

theorem csv_field_comma (v r' : Str) (acc : List Str) :
    splitCSVAux false [] acc (csvField v ++ ',' :: r') =
      splitCSVAux false [] (acc ++ [v]) r' := by
  unfold csvField
  by_cases hq : v.any (fun c => c == ',' || c == '"' || c == '\n') = true
  · rw [if_pos hq]
    rw [show ('"' :: (replaceAll v ['"'] ['"', '"'] ++ ['"'])) ++ ',' :: r' =
        '"' :: (replaceAll v ['"'] ['"', '"'] ++ '"' :: (',' :: r')) from by simp]
    rw [show splitCSVAux false [] acc
        ('"' :: (replaceAll v ['"'] ['"', '"'] ++ '"' :: (',' :: r'))) =
        splitCSVAux true [] acc
          (replaceAll v ['"'] ['"', '"'] ++ '"' :: (',' :: r')) from rfl]
    rw [csv_q_exit v [] (',' :: r') acc (Or.inr ⟨r', rfl⟩)]
    simp [splitCSVAux]
  · rw [if_neg hq]
    have hf : (v.any fun c => c == ',' || c == '"' || c == '\n') = false := by
      cases ha : (v.any fun c => c == ',' || c == '"' || c == '\n')
      · rfl
      · exact absurd ha hq
    have h : ∀ c ∈ v, ¬c = ',' ∧ ¬c = '"' := by
      intro c hc
      have hb := List.any_eq_false.mp hf c hc
      constructor
      · intro he; subst he; simp at hb
      · intro he; subst he; simp at hb
    rw [csv_unq_comma v h [] r' acc]
    simp

theorem csv_line :
    ∀ values : List Str, values ≠ [] → ∀ acc : List Str,
      splitCSVAux false [] acc (formatCSV values) = acc ++ values := by
  intro values
  induction values with
  | nil => intro h; exact absurd rfl h
  | cons v vs ih =>
    intro _ acc
    rcases vs with _ | ⟨w, ws⟩
    · rw [show formatCSV [v] = csvField v from rfl, csv_field_end]
    · rw [show formatCSV (v :: w :: ws) =
          csvField v ++ ',' :: joinWith ',' ((w :: ws).map csvField) from rfl]
      rw [csv_field_comma]
      rw [show joinWith ',' ((w :: ws).map csvField) = formatCSV (w :: ws) from rfl]
      rw [ih (by simp) (acc ++ [v])]
      simp

/-! ## `extractQueryInfo` first-match lemma -/

theorem extractQueryInfo_first {q c : Str} {pre post : List Str} {d name : Str}
    (hsplit : splitOnNL c = pre ++ d :: post)
    (hpre : ∀ l ∈ pre, lineTab l = none) (hd : lineTab d = some name) :
    (extractQueryInfo q c).tableName = name := by
  unfold extractQueryInfo
  rw [hsplit, List.findSome?_append]
  have h1 : List.findSome? lineTab pre = none :=
    List.findSome?_eq_none_iff.mpr hpre
  rw [h1]
  rw [List.findSome?_cons_of_isSome _ (by rw [hd]; rfl), hd]
  rfl

/-! ## Batch-execution lemmas -/

theorem runBatchP2_abort (db : Str → Except Str Unit) (ps : List (Str × Str)) :
    ∀ pre : List (Str × Str), ∀ p : Str × Str, ∀ post : List (Str × Str), ∀ e : Str,
      (∀ x ∈ pre,
        db (substituteParams (cleanQuery (extractQueryInfo x.1 x.2).query) ps) = .ok ()) →
      db (substituteParams (cleanQuery (extractQueryInfo p.1 p.2).query) ps) = .error e →
      runBatchP2 db ps (pre ++ p :: post) =
        (pre.map (fun x =>
            substituteParams (cleanQuery (extractQueryInfo x.1 x.2).query) ps) ++
          [substituteParams (cleanQuery (extractQueryInfo p.1 p.2).query) ps],
          some e) := by
  intro pre
  induction pre with
  | nil =>
    intro p post e _ herr
    simp [runBatchP2, herr]
  | cons x pre' ih =>
    intro p post e hok herr
    have hx := hok x (List.mem_cons_self _ _)
    rw [List.cons_append]
    rw [show runBatchP2 db ps (x :: (pre' ++ p :: post)) =
        (match db (substituteParams (cleanQuery (extractQueryInfo x.1 x.2).query) ps) with
          | .error e => ([substituteParams (cleanQuery (extractQueryInfo x.1 x.2).query) ps], some e)
          | .ok _ =>
            let r := runBatchP2 db ps (pre' ++ p :: post)
            (substituteParams (cleanQuery (extractQueryInfo x.1 x.2).query) ps :: r.1, r.2))
      from rfl]
    rw [hx]
    rw [ih p post e (fun y hy => hok y (List.mem_cons_of_mem _ hy)) herr]
    simp

theorem runBatchMain_all (db : Str → Except Str Unit) :
    ∀ qs : List Str,
      (runBatchMain db qs).1 = (qs.map trimSpace).filter (fun t => !t.isEmpty) := by
  intro qs
  induction qs with
  | nil => rfl
  | cons q rest ih =>
    by_cases hbe : (trimSpace q).isEmpty = true
    · simp [runBatchMain, hbe, ih]
    · rcases hdb : db (trimSpace q) with e | u
      · simp [runBatchMain, hbe, hdb, ih]
      · simp [runBatchMain, hbe, hdb, ih]

/-! ## Excel cell lemma -/

theorem excelCells_values (cols : List Str) (data : List (List Str)) (b : Bool) :
    (excelCells cols data b).map (fun t => t.2.2) =
      (if b then cols else []) ++ data.flatMap (fun r => r) := by
  unfold excelCells
  rw [List.map_append]
  congr 1
  · cases b
    · rfl
    · show (List.map (fun p : Nat × Str => (p.1 + 1, 1, p.2)) cols.enum).map
        (fun t : Nat × Nat × Str => t.2.2) = cols
      rw [List.map_map]
      exact List.enum_map_snd cols
  · rw [List.map_flatMap]
    have key : ∀ d : List (List Str), ∀ n : Nat,
        (d.enumFrom n).flatMap (fun ri =>
          List.map (fun t : Nat × Nat × Str => t.2.2)
            (List.map (fun cj : Nat × Str =>
              (cj.1 + 1, (if b then ri.1 + 2 else ri.1 + 1), cj.2)) ri.2.enum)) =
        d.flatMap (fun r => r) := by
      intro d
      induction d with
      | nil => intro n; rfl
      | cons r d' ih =>
        intro n
        rw [show (r :: d').enumFrom n = (n, r) :: d'.enumFrom (n + 1) from rfl]
        rw [List.flatMap_cons, List.flatMap_cons, ih (n + 1)]
        congr 1
        rw [List.map_map]
        exact List.enum_map_snd r
    have he : data.enum = data.enumFrom 0 := rfl
    rw [he]
    exact key data 0

/-! ## `processCommands` comment-diversion invariant -/

theorem pcStep_comment {st : Str × Str × List (Str × Str)} {l : Str}
    (hns : isCommandSeparator l = false)
    (hcm : isPre ['-', '-'] (trimSpace l) = true) :
    pcStep st l = (st.1, st.2.1 ++ l ++ ['\n'], st.2.2) := by
  simp [pcStep, hns, hcm]

theorem pcStep_normal {st : Str × Str × List (Str × Str)} {l : Str}
    (hns : isCommandSeparator l = false)
    (hcm : isPre ['-', '-'] (trimSpace l) = false) :
    pcStep st l =
      (if st.1.isEmpty then l else st.1 ++ '\n' :: l, st.2.1, st.2.2) := by
  simp [pcStep, hns, hcm]

theorem pcStep_sep_skip {st : Str × Str × List (Str × Str)} {l : Str}
    (hsep : isCommandSeparator l = true) (hbe : st.1.isEmpty = true) :
    pcStep st l = st := by
  simp [pcStep, hsep, hbe]

theorem pcStep_sep_emit {st : Str × Str × List (Str × Str)} {l : Str}
    (hsep : isCommandSeparator l = true) (hbe : st.1.isEmpty = false) :
    pcStep st l = ([], [], st.2.2 ++ [(st.1, st.2.1)]) := by
  simp [pcStep, hsep, hbe]

/-- The invariant maintained by `processCommands`: no line of the current
statement buffer, nor of any emitted statement, has a whitespace-trimmed
form starting with `--`. -/
abbrev PCInv (st : Str × Str × List (Str × Str)) : Prop :=
  (∀ l ∈ splitOnNL st.1, isPre ['-', '-'] (trimSpace l) = false) ∧
    ∀ p ∈ st.2.2, ∀ l ∈ splitOnNL p.1, isPre ['-', '-'] (trimSpace l) = false

theorem pc_invariant :
    ∀ lines : List Str, (∀ l ∈ lines, '\n' ∉ l) →
      ∀ st : Str × Str × List (Str × Str), PCInv st →
      PCInv (lines.foldl pcStep st) := by
  intro lines
  induction lines with
  | nil => exact fun _ _ h => h
  | cons l lines' ih =>
    intro hnl st hinv
    have hnl' : ∀ x ∈ lines', '\n' ∉ x :=
      fun x hx => hnl x (List.mem_cons_of_mem _ hx)
    have hlnl : '\n' ∉ l := hnl l (List.mem_cons_self _ _)
    rw [List.foldl_cons]
    apply ih hnl'
    by_cases hsep : isCommandSeparator l = true
    · by_cases hbe : st.1.isEmpty = true
      · rw [pcStep_sep_skip hsep hbe]
        exact hinv
      · rw [pcStep_sep_emit hsep (by simpa using hbe)]
        refine ⟨?_, ?_⟩
        · show ∀ l ∈ splitOnNL ([] : Str), isPre ['-', '-'] (trimSpace l) = false
          decide
        · intro p hp
          rcases List.mem_append.mp hp with hm | hm
          · exact hinv.2 p hm
          · rcases List.mem_cons.mp hm with he | hm'
            · subst he
              exact hinv.1
            · exact absurd hm' (List.not_mem_nil p)
    · have hns : isCommandSeparator l = false := by simpa using hsep
      by_cases hcm : isPre ['-', '-'] (trimSpace l) = true
      · rw [pcStep_comment hns hcm]
        exact hinv
      · have hcm' : isPre ['-', '-'] (trimSpace l) = false := by simpa using hcm
        rw [pcStep_normal hns hcm']
        refine ⟨?_, hinv.2⟩
        by_cases hbe : st.1.isEmpty = true
        · rw [if_pos hbe]
          rw [splitOnNL_no_nl hlnl]
          intro x hx
          rcases List.mem_cons.mp hx with he | hm
          · subst he; exact hcm'
          · exact absurd hm (List.not_mem_nil x)
        · rw [if_neg hbe]
          have hsplit : splitOnNL (st.1 ++ '\n' :: l) =
              splitOnNL st.1 ++ [l] := by
            rw [splitOnNL_append, splitOnNL_no_nl hlnl]
          rw [hsplit]
          intro x hx
          rcases List.mem_append.mp hx with hm | hm
          · exact hinv.1 x hm
          · rcases List.mem_cons.mp hm with he | hm'
            · subst he; exact hcm'
            · exact absurd hm' (List.not_mem_nil x)

/-! ## `processCommands` round-trip lemmas -/

theorem processCommandsPairs_eq (lines : List Str) :
    processCommandsPairs lines = pcFinalize (lines.foldl pcStep ([], [], [])) :=
  rfl

theorem pcFinalize_emit {buf cbuf : Str} {em : List (Str × Str)}
    (hbuf : buf ≠ []) : pcFinalize (buf, cbuf, em) = em ++ [(buf, cbuf)] := by
  simp [pcFinalize, isEmpty_false_of_ne hbuf]

theorem pcStep_append_line {buf cbuf : Str} {em : List (Str × Str)} {l : Str}
    (hns : isCommandSeparator l = false)
    (hcm : isPre ['-', '-'] (trimSpace l) = false) :
    pcStep (buf, cbuf, em) l =
      (if buf.isEmpty then l else buf ++ '\n' :: l, cbuf, em) :=
  pcStep_normal hns hcm

theorem pcStep_emit_pair {buf cbuf : Str} {em : List (Str × Str)} {l : Str}
    (hsep : isCommandSeparator l = true) (hbe : buf.isEmpty = false) :
    pcStep (buf, cbuf, em) l = ([], [], em ++ [(buf, cbuf)]) :=
  pcStep_sep_emit hsep hbe

theorem blank_append_line {l : Str} (hl : AllSpace l) :
    isCommandSeparator l = false ∧ isPre ['-', '-'] (trimSpace l) = false := by
  refine ⟨allSpace_not_sep hl, ?_⟩
  rw [allSpace_trimSpace hl]
  rfl

theorem pc_append_lines :
    ∀ ls : List Str,
      (∀ l ∈ ls, isCommandSeparator l = false ∧
        isPre ['-', '-'] (trimSpace l) = false) →
      ∀ {buf cbuf : Str} {em : List (Str × Str)}, buf ≠ [] →
      List.foldl pcStep (buf, cbuf, em) ls =
        (buf ++ ls.flatMap (fun l => '\n' :: l), cbuf, em) := by
  intro ls
  induction ls with
  | nil => intro _ buf cbuf em _; simp
  | cons l ls' ih =>
    intro hls buf cbuf em hbuf
    obtain ⟨h1, h2⟩ := hls l (List.mem_cons_self _ _)
    rw [List.foldl_cons, pcStep_append_line h1 h2]
    rw [if_neg (by simp [isEmpty_false_of_ne hbuf])]
    rw [ih (fun x hx => hls x (List.mem_cons_of_mem _ hx)) (by simp)]
    simp

theorem pc_blanks_from_space :
    ∀ b : List Str, (∀ l ∈ b, AllSpace l) →
      ∀ {buf cbuf : Str} {em : List (Str × Str)}, AllSpace buf →
      ∃ buf', List.foldl pcStep (buf, cbuf, em) b = (buf', cbuf, em) ∧
        AllSpace buf' := by
  intro b
  induction b with
  | nil => exact fun _ _ _ _ h => ⟨_, rfl, h⟩
  | cons l b' ih =>
    intro hb buf cbuf em hbuf
    have hl := hb l (List.mem_cons_self _ _)
    obtain ⟨h1, h2⟩ := blank_append_line hl
    have hb' : ∀ x ∈ b', AllSpace x := fun x hx => hb x (List.mem_cons_of_mem _ hx)
    rw [List.foldl_cons, pcStep_append_line h1 h2]
    by_cases hbe : buf.isEmpty = true
    · rw [if_pos hbe]
      exact ih hb' hl
    · rw [if_neg hbe]
      exact ih hb' (allSpace_append_nl hbuf hl)

theorem pc_blanks_keep :
    ∀ b : List Str, (∀ l ∈ b, AllSpace l) →
      ∀ {buf cbuf : Str} {em : List (Str × Str)} {q : Str},
        buf ≠ [] → trimSpace buf = q →
      ∃ buf', List.foldl pcStep (buf, cbuf, em) b = (buf', cbuf, em) ∧
        trimSpace buf' = q ∧ buf' ≠ [] := by
  intro b
  induction b with
  | nil => exact fun _ _ _ _ _ h1 h2 => ⟨_, rfl, h2, h1⟩
  | cons l b' ih =>
    intro hb buf cbuf em q hbuf htrim
    have hl := hb l (List.mem_cons_self _ _)
    obtain ⟨h1, h2⟩ := blank_append_line hl
    have hb' : ∀ x ∈ b', AllSpace x := fun x hx => hb x (List.mem_cons_of_mem _ hx)
    rw [List.foldl_cons, pcStep_append_line h1 h2]
    rw [if_neg (by simp [isEmpty_false_of_ne hbuf])]
    have htrim' : trimSpace (buf ++ '\n' :: l) = q := by
      have : buf ++ '\n' :: l = buf ++ ('\n' :: l) := rfl
      rw [this, trimSpace_append_space, htrim]
      intro c hc
      rcases List.mem_cons.mp hc with he | hm
      · subst he; rfl
      · exact hl c hm
    exact ih hb' (by simp) htrim'

theorem pc_stmt {q : Str} (hq : CleanStmt q) (hqc : NoCommentLines q) :
    ∀ {buf cbuf : Str} {em : List (Str × Str)}, AllSpace buf →
      ∃ buf', List.foldl pcStep (buf, cbuf, em) (splitOnNL q) = (buf', cbuf, em) ∧
        trimSpace buf' = q ∧ buf' ≠ [] := by
  obtain ⟨hqt, hqne, hqlines, _⟩ := hq
  obtain ⟨l, ls, hsplit, hlne⟩ := splitOnNL_first_ne_nil hqt hqne
  intro buf cbuf em hbuf
  have hfacts : ∀ x ∈ splitOnNL q, isCommandSeparator x = false ∧
      isPre ['-', '-'] (trimSpace x) = false :=
    fun x hx => ⟨hqlines x hx, hqc x hx⟩
  have hjoin : l ++ ls.flatMap (fun x => '\n' :: x) = q := by
    rw [← joinNL_cons, ← hsplit, joinNL_splitOnNL]
  obtain ⟨hl1, hl2⟩ := hfacts l (hsplit ▸ List.mem_cons_self _ _)
  have hlsfacts : ∀ x ∈ ls, isCommandSeparator x = false ∧
      isPre ['-', '-'] (trimSpace x) = false :=
    fun x hx => hfacts x (hsplit ▸ List.mem_cons_of_mem _ hx)
  rw [hsplit, List.foldl_cons, pcStep_append_line hl1 hl2]
  by_cases hbe : buf.isEmpty = true
  · rw [if_pos hbe]
    rw [pc_append_lines ls hlsfacts hlne]
    exact ⟨_, rfl, by rw [hjoin]; exact ⟨hqt, hjoin ▸ hqne⟩⟩
  · rw [if_neg hbe]
    rw [pc_append_lines ls hlsfacts (by simp)]
    refine ⟨_, rfl, ?_, by simp⟩
    have hassoc : (buf ++ '\n' :: l) ++ ls.flatMap (fun x => '\n' :: x) =
        (buf ++ ['\n']) ++ q := by
      rw [← hjoin]; simp
    rw [hassoc, trimSpace_space_append, hqt]
    intro c hc
    rcases List.mem_append.mp hc with hm | hm
    · exact hbuf c hm
    · rcases List.mem_cons.mp hm with he | hm'
      · subst he; rfl
      · exact absurd hm' (List.not_mem_nil c)

theorem pc_segments :
    ∀ rest : List (List Str × Str),
      (∀ p ∈ rest, PCGlue p.1 ∧ CleanStmt p.2 ∧ NoCommentLines p.2) →
      ∀ trail : List Str, (∀ l ∈ trail, AllSpace l) →
      ∀ {buf cbuf : Str} {em : List (Str × Str)} {qprev : Str},
        buf ≠ [] → trimSpace buf = qprev → qprev ≠ [] →
        isPre [';'] qprev.reverse = false →
        (pcFinalize (List.foldl pcStep (buf, cbuf, em)
            (rest.flatMap (fun p => p.1 ++ splitOnNL p.2) ++ trail))).map
          (fun p => cleanQuery p.1) =
          em.map (fun p => cleanQuery p.1) ++ qprev :: rest.map (·.2) := by
  intro rest
  induction rest with
  | nil =>
    intro _ trail htrail buf cbuf em qprev hbuf htrim hqne hsemi
    have hform : (([] : List (List Str × Str)).flatMap
        (fun p => p.1 ++ splitOnNL p.2)) ++ trail = trail := by simp
    rw [hform]
    obtain ⟨buf', hfold, htrim', hne'⟩ := pc_blanks_keep trail htrail hbuf htrim
    rw [hfold, pcFinalize_emit hne', List.map_append]
    simp [cleanQuery_of_trim htrim' hsemi]
  | cons pg rest' ih =>
    intro hrest trail htrail buf cbuf em qprev hbuf htrim hqne hsemi
    obtain ⟨hglue, hclean, hnc⟩ := hrest pg (List.mem_cons_self _ _)
    obtain ⟨b, s, b2, hgeq, hball, hsep, hb2all⟩ := hglue
    have hrest' : ∀ x ∈ rest', PCGlue x.1 ∧ CleanStmt x.2 ∧ NoCommentLines x.2 :=
      fun x hx => hrest x (List.mem_cons_of_mem _ hx)
    have hform : (pg :: rest').flatMap (fun p => p.1 ++ splitOnNL p.2) ++ trail =
        b ++ (s :: (b2 ++ (splitOnNL pg.2 ++
          (rest'.flatMap (fun p => p.1 ++ splitOnNL p.2) ++ trail)))) := by
      simp [hgeq]
    rw [hform, List.foldl_append]
    obtain ⟨buf₁, hf1, ht1, hn1⟩ := pc_blanks_keep b hball hbuf htrim
    rw [hf1, List.foldl_cons, pcStep_emit_pair hsep (isEmpty_false_of_ne hn1)]
    rw [List.foldl_append]
    obtain ⟨w, hfw, hwsp⟩ := pc_blanks_from_space b2 hb2all
      (fun c hc => absurd hc (List.not_mem_nil c))
    rw [hfw, List.foldl_append]
    obtain ⟨buf₂, hf2, ht2, hn2⟩ := pc_stmt hclean hnc hwsp
    rw [hf2]
    rw [ih hrest' trail htrail hn2 ht2 hclean.2.1
      (endsSemi_false_of_cleanup hclean.2.2.2 hclean.2.1)]
    rw [List.map_append]
    simp [cleanQuery_of_trim ht1 hsemi]

theorem pc_roundtrip (lead : List Str) (q1 : Str) (rest : List (List Str × Str))
    (trail : List Str) (hlead : ∀ l ∈ lead, AllSpace l) (hq1 : CleanStmt q1)
    (hq1c : NoCommentLines q1)
    (hrest : ∀ p ∈ rest, PCGlue p.1 ∧ CleanStmt p.2 ∧ NoCommentLines p.2)
    (htrail : ∀ l ∈ trail, AllSpace l) :
    (processCommandsPairs (buildBatchInput lead q1 rest trail)).map
      (fun p => cleanQuery p.1) = q1 :: rest.map (·.2) := by
  rw [processCommandsPairs_eq]
  unfold buildBatchInput
  rw [List.append_assoc, List.append_assoc, List.foldl_append, List.foldl_append]
  obtain ⟨w, hfw, hwsp⟩ := pc_blanks_from_space lead hlead
    (fun c hc => absurd hc (List.not_mem_nil c))
  rw [hfw]
  obtain ⟨buf₁, hf1, ht1, hn1⟩ := pc_stmt hq1 hq1c hwsp
  rw [hf1]
  rw [pc_segments rest hrest trail htrail hn1 ht1 hq1.2.1
    (endsSemi_false_of_cleanup hq1.2.2.2 hq1.2.1)]
  rfl

/-! ## Claim theorems -/

/-- C1 (counterexample): the claim — SQL NULL renders as the text `NULL` in
non-spreadsheet formats and as the empty string in spreadsheet formats, both
in the same run — is false on both revisions.  In part_002 the `data` matrix
built by `executeQuery` maps NULL to `"NULL"` and `writeExcel` writes those
strings into the sheet verbatim, so the spreadsheet cell holds `NULL`, not
empty; in main.go `executeQueryDefault` maps NULL to `""`, so the TSV row for
a NULL cell is empty, not `NULL`. -/
theorem claim_C1_counterexample :
    (excelCells ["A".data] [[rowCellP2 none]] true).map (fun t => t.2.2) =
      ["A".data, "NULL".data] ∧
    "NULL".data ≠ ([] : Str) ∧
    formatRow [rowCellMain none] "tsv".data = [] ∧
    ([] : Str) ≠ "NULL".data := by decide

/-- C1 (amended): NULL rendering is uniform per revision, not per format:
part_002 (`executeQuery`) renders SQL NULL as the literal text `NULL` for
every output of that revision, spreadsheets included (`writeExcel` copies the
`data` strings into cells verbatim); main.go renders SQL NULL as the empty
string in all of its paths (`executeQueryDefault`, `executeQueryHTML`,
`executeExcelQueries`). -/
theorem claim_C1_amended :
    rowCellP2 none = "NULL".data ∧ rowCellMain none = [] ∧
    rowCellHTMLMain none = [] ∧ rowCellExcelMain none = [] ∧
    (∀ s : Str, rowCellP2 (some s) = s ∧ rowCellMain (some s) = s) ∧
    ∀ (cols : List Str) (data : List (List Str)) (b : Bool),
      (excelCells cols data b).map (fun t => t.2.2) =
        (if b then cols else []) ++ data.flatMap (fun r => r) :=
  ⟨rfl, rfl, rfl, rfl, fun _ => ⟨rfl, rfl⟩, excelCells_values⟩

/-- C2 (code bug, evaluation): `escapeHTML` (main.go, lines 768-776) escapes
`&`, `"` and `'`, but its replacements for `<` and `>` replace them by
themselves (no-ops in the source text), so `<` and `>` reach the HTML
unescaped; and `writeHTMLTable` (part_002) applies no escaping at all — a raw
`<script>` cell lands verbatim inside `<td>...</td>`. -/
theorem claim_C2_eval :
    escapeHTML "<".data = "<".data ∧ escapeHTML ">".data = ">".data ∧
    escapeHTML "&".data = "&amp;".data ∧
    escapeHTML "\"".data = "&quot;".data ∧
    escapeHTML "'".data = "&#39;".data ∧
    hasSub (htmlTableStr ["C".data] [["<script>".data]] true [])
      "<td><script></td>".data = true := by decide

/-- C3 (counterexample): in main.go's `processLines` only one trailing
semicolon is removed per statement; the input statement `SELECT 1;; ;`
yields `SELECT 1;;`, not `SELECT 1` as the claim states. -/
theorem claim_C3_counterexample :
    processLines ["SELECT 1;; ;".data] = ["SELECT 1;;".data] ∧
    "SELECT 1;;".data ≠ "SELECT 1".data := by decide

/-- C3 (amended): the full stripping of trailing semicolons is part_002's
`cleanQuery`: its result is always trimmed and never ends in `;`, and
`cleanQuery "SELECT 1;; ;" = "SELECT 1"`.  main.go's `processLines` instead
removes at most one trailing semicolon (see the counterexample), and it is
the revision that drops statements that become empty after cleanup. -/
theorem claim_C3_amended :
    (∀ q : Str, trimSpace (cleanQuery q) = cleanQuery q ∧
      isPre [';'] (cleanQuery q).reverse = false) ∧
    cleanQuery "SELECT 1;; ;".data = "SELECT 1".data ∧
    processLines [";".data] = [] :=
  ⟨cleanQuery_clean, by decide, by decide⟩

/-- C5 (counterexample): parameter substitution is chained
`strings.ReplaceAll` in map-iteration order, not simultaneous: with keys `a`
and `ab` on the statement `&ab`, one iteration order yields `Xb` and the
other `Y`, so the result is not independent of the order of distinct keys. -/
theorem claim_C5_counterexample :
    substituteParams "&ab".data [("a".data, "X".data), ("ab".data, "Y".data)] =
      "Xb".data ∧
    substituteParams "&ab".data [("ab".data, "Y".data), ("a".data, "X".data)] =
      "Y".data ∧
    "Xb".data ≠ "Y".data := by decide

/-- C5 (amended): substitution replaces per key by chained `ReplaceAll` in
map-iteration order, and the order can matter for overlapping keys (see the
counterexample).  What does hold: an empty parameter map is a no-op, and a
statement in which no `&<key>` occurs for any key of the map is returned
verbatim — unmatched `&name` tokens are left as-is. -/
theorem claim_C5_amended :
    (∀ q : Str, substituteParams q [] = q) ∧
    ∀ (q : Str) (ps : List (Str × Str)),
      (∀ p ∈ ps, hasSub q ('&' :: p.1) = false) → substituteParams q ps = q := by
  constructor
  · intro q; rfl
  · intro q ps
    induction ps generalizing q with
    | nil => intro _; rfl
    | cons p ps' ih =>
      intro h
      have h1 : replaceAll q ('&' :: p.1) p.2 = q :=
        replaceAll_not_sub (h p (List.mem_cons_self _ _))
      unfold substituteParams
      rw [List.foldl_cons, h1]
      exact ih q fun x hx => h x (List.mem_cons_of_mem _ hx)

theorem claim_C5_witness :
    substituteParams "WHERE x = 1".data [("id".data, "7".data)] =
      "WHERE x = 1".data :=
  claim_C5_amended.2 _ _ (by decide)

/-- C6 (counterexample): with two directives `-- tab = A` and `-- tab = B`
before one statement, `extractQueryInfo` labels the statement `A` — the loop
`break`s at the first matching comment line — whereas the claim says only the
last directive (`B`) applies. -/
theorem claim_C6_counterexample :
    (extractQueryInfo "Q".data "-- tab = A\n-- tab = B\n".data).tableName =
      "A".data ∧
    "A".data ≠ "B".data := by decide

/-- C6 (amended): among the comment lines preceding a statement, the *first*
line carrying a `-- tab = <name>` directive determines the table/sheet label
(later directives are ignored); directive lines, like every full-line
comment, are kept out of the statement text (claim C10). -/
theorem claim_C6_amended :
    ∀ (q c : Str) (pre post : List Str) (d name : Str),
      splitOnNL c = pre ++ d :: post →
      (∀ l ∈ pre, lineTab l = none) →
      lineTab d = some name →
      (extractQueryInfo q c).tableName = name :=
  fun _ _ _ _ _ _ h1 h2 h3 => extractQueryInfo_first h1 h2 h3

theorem claim_C6_witness :
    (extractQueryInfo "Q".data "-- note\n-- tab = A\n-- tab = B".data).tableName =
      "A".data :=
  claim_C6_amended _ _ ["-- note".data] ["-- tab = B".data] "-- tab = A".data
    "A".data (by decide) (by decide) (by decide)

/-- C4 (counterexample): part_002's `writeCSV` joins fields with commas
verbatim — no quoting, no doubling — so the cell `a,"b"` lands in the file as
`a,"b"` and a reference CSV reader splits it into two fields `a` and `b`
instead of recovering the original cell: the round-trip fails, contradicting
the claim for this revision. -/
theorem claim_C4_counterexample :
    writeCSVBlock ["C".data] [["a,\"b\"".data]] true 1 [] = "C\na,\"b\"\n".data ∧
    parseCSVLine "a,\"b\"".data = ["a".data, "b".data] ∧
    ["a".data, "b".data] ≠ ["a,\"b\"".data] := by decide

/-- C4 (amended): the quoting behaviour belongs to main.go's `formatCSV`:
fields containing comma, quote or newline are wrapped in double quotes with
internal quotes doubled (others verbatim), the cell `a,"b"` serializes as
`"a,""b"""`, and a reference CSV reader recovers every original field from
the serialized line.  part_002's `writeCSV` joins rows verbatim and does not
round-trip (see the counterexample). -/
theorem claim_C4_amended :
    (∀ values : List Str, values ≠ [] →
      parseCSVLine (formatCSV values) = values) ∧
    formatCSV ["a,\"b\"".data] = "\"a,\"\"b\"\"\"".data := by
  constructor
  · intro values h
    unfold parseCSVLine
    rw [csv_line values h []]
    rfl
  · decide

theorem claim_C4_witness :
    parseCSVLine (formatCSV ["a,\"b\"".data, "x".data]) =
      ["a,\"b\"".data, "x".data] :=
  claim_C4_amended.1 _ (by decide)

/-- main.go's `processLines` returns exactly the clean statements of a batch
joined by `/`-separator glue, for arbitrary blank lines around the separators
(and blank or separator lines before and after the batch). -/
theorem processLines_roundtrip (lead : List Str) (q1 : Str)
    (rest : List (List Str × Str))
    (trail : List Str) (hlead : ∀ l ∈ lead, GlueLine l) (hq1 : CleanStmt q1)
    (hrest : ∀ p ∈ rest, SepGlue p.1 ∧ CleanStmt p.2)
    (htrail : ∀ l ∈ trail, GlueLine l) :
    processLines (buildBatchInput lead q1 rest trail) = q1 :: rest.map (·.2) := by
  unfold processLines buildBatchInput
  rw [List.append_assoc, List.append_assoc, List.foldl_append, List.foldl_append]
  obtain ⟨w, hw, hwsp⟩ := @foldl_glue_space lead hlead [] []
    (fun c hc => absurd hc (List.not_mem_nil c))
  rw [hw]
  obtain ⟨buf1, hb1, ht1, hn1⟩ := foldl_stmt hq1 hwsp
  rw [hb1]
  rw [foldl_segments rest hrest trail htrail hn1 ht1 hq1.2.1]
  rw [List.nil_append]
  apply cleanup_keep
  intro x hx
  rcases List.mem_cons.mp hx with he | hm
  · subst he
    exact ⟨hq1.2.2.2, hq1.2.1⟩
  · obtain ⟨p, hp, hpe⟩ := List.mem_map.mp hm
    obtain ⟨_, hc⟩ := hrest p hp
    rw [← hpe]
    exact ⟨hc.2.2.2, hc.2.1⟩

/-- C7 (counterexample): the claim also covers part_002's `processCommands`,
where splitting is not idempotent on clean input: the statement
`SELECT 1\n-- note\nFROM DUAL` is clean (trimmed, non-empty, no separator
line, no trailing semicolon — indeed `processLines` returns it unchanged),
yet `processCommands` diverts its full-line comment to the comment buffer
and emits the altered statement `SELECT 1\nFROM DUAL`. -/
theorem claim_C7_counterexample :
    CleanStmt "SELECT 1\n-- note\nFROM DUAL".data ∧
    processLines (buildBatchInput [] "SELECT 1\n-- note\nFROM DUAL".data [] []) =
      ["SELECT 1\n-- note\nFROM DUAL".data] ∧
    processCommandsPairs
        (buildBatchInput [] "SELECT 1\n-- note\nFROM DUAL".data [] []) =
      [("SELECT 1\nFROM DUAL".data, "-- note\n".data)] ∧
    "SELECT 1\nFROM DUAL".data ≠ "SELECT 1\n-- note\nFROM DUAL".data := by
  refine ⟨by decide, by decide, by decide, by decide⟩

/-- C7 (amended): splitting is idempotent on already-clean input, with the
scope the two revisions force.  For main.go's `processLines` it holds as
stated: any batch of clean statements joined by `/`-separator glue, with
arbitrary blank lines around the separators, splits back to exactly those
statements.  For part_002's `processCommands` it additionally requires that
no line of a statement is a full-line `--` comment (such lines are diverted
to the comment buffer — see the counterexample) and that each separator
stands alone between statements; the statements are then recovered exactly,
through the `cleanQuery` normalization that `executeQuery` applies to each
emitted buffer. -/
theorem claim_C7_amended :
    (∀ (lead : List Str) (q1 : Str) (rest : List (List Str × Str))
        (trail : List Str),
      (∀ l ∈ lead, GlueLine l) → CleanStmt q1 →
      (∀ p ∈ rest, SepGlue p.1 ∧ CleanStmt p.2) →
      (∀ l ∈ trail, GlueLine l) →
      processLines (buildBatchInput lead q1 rest trail) =
        q1 :: rest.map (·.2)) ∧
    ∀ (lead : List Str) (q1 : Str) (rest : List (List Str × Str))
        (trail : List Str),
      (∀ l ∈ lead, AllSpace l) → CleanStmt q1 → NoCommentLines q1 →
      (∀ p ∈ rest, PCGlue p.1 ∧ CleanStmt p.2 ∧ NoCommentLines p.2) →
      (∀ l ∈ trail, AllSpace l) →
      (processCommandsPairs (buildBatchInput lead q1 rest trail)).map
        (fun p => cleanQuery p.1) = q1 :: rest.map (·.2) :=
  ⟨fun lead q1 rest trail h1 h2 h3 h4 =>
      processLines_roundtrip lead q1 rest trail h1 h2 h3 h4,
    fun lead q1 rest trail h1 h2 h3 h4 h5 =>
      pc_roundtrip lead q1 rest trail h1 h2 h3 h4 h5⟩

theorem claim_C7_witness :
    processLines (buildBatchInput [] "SELECT 1 AS A FROM DUAL".data
        [(["/".data], "SELECT 2 AS B FROM DUAL".data)] ["".data]) =
      ["SELECT 1 AS A FROM DUAL".data, "SELECT 2 AS B FROM DUAL".data] ∧
    (processCommandsPairs (buildBatchInput [] "SELECT 1 AS A FROM DUAL".data
        [(["/".data], "SELECT 2 AS B FROM DUAL".data)] ["".data])).map
      (fun p => cleanQuery p.1) =
      ["SELECT 1 AS A FROM DUAL".data, "SELECT 2 AS B FROM DUAL".data] :=
  ⟨claim_C7_amended.1 _ _ _ _ (by decide) (by decide) (by decide) (by decide),
    claim_C7_amended.2 _ _ _ _ (by decide) (by decide) (by decide)
      (by
        intro p hp
        rw [List.mem_singleton] at hp
        subst hp
        exact ⟨⟨[], "/".data, [], rfl, by decide, by decide, by decide⟩,
          by decide, by decide⟩)
      (by decide)⟩

/-- C8 (counterexample): main.go's `executeTextQueries` does not abort on a
query failure — the error is printed and the loop continues, and the function
returns `nil`.  With a driver failing on `A`, both `A` and `B` are handed to
the driver and the only trace of the failure is the logged error list. -/
theorem claim_C8_counterexample :
    runBatchMain
      (fun s => if s = "A".data then Except.error "boom".data else Except.ok ())
      ["A".data, "B".data] =
      (["A".data, "B".data], ["boom".data]) := by decide

/-- C8 (amended): the abort-on-first-failure policy is part_002's: its
`processCommands`/`executeQuery` loop surfaces the first driver error and
executes nothing after the failing statement.  main.go's `executeTextQueries`
instead logs the failure and continues: it hands every (trimmed, non-empty)
statement of the batch to the driver regardless of earlier failures. -/
theorem claim_C8_amended :
    (∀ (db : Str → Except Str Unit) (ps : List (Str × Str))
        (pre : List (Str × Str)) (p : Str × Str) (post : List (Str × Str))
        (e : Str),
      (∀ x ∈ pre,
        db (substituteParams (cleanQuery (extractQueryInfo x.1 x.2).query) ps) =
          .ok ()) →
      db (substituteParams (cleanQuery (extractQueryInfo p.1 p.2).query) ps) =
        .error e →
      runBatchP2 db ps (pre ++ p :: post) =
        (pre.map (fun x =>
            substituteParams (cleanQuery (extractQueryInfo x.1 x.2).query) ps) ++
          [substituteParams (cleanQuery (extractQueryInfo p.1 p.2).query) ps],
          some e)) ∧
    ∀ (db : Str → Except Str Unit) (qs : List Str),
      (runBatchMain db qs).1 = (qs.map trimSpace).filter (fun t => !t.isEmpty) :=
  ⟨fun db ps => runBatchP2_abort db ps, runBatchMain_all⟩

theorem claim_C8_witness :
    runBatchP2
      (fun s => if s = "BAD".data then Except.error "e".data else Except.ok ()) []
      [("SELECT 1".data, "".data), ("BAD".data, "".data),
        ("SELECT 2".data, "".data)] =
      (["SELECT 1".data, "BAD".data], some "e".data) := by
  have h := claim_C8_amended.1
    (fun s => if s = "BAD".data then Except.error "e".data else Except.ok ()) []
    [("SELECT 1".data, "".data)] ("BAD".data, "".data)
    [("SELECT 2".data, "".data)] "e".data
    (by
      intro x hx
      rw [List.mem_singleton] at hx
      subst hx
      rfl)
    (by rfl)
  exact h.trans (by decide)

/-- C10 (confirmed): in `processCommands`, every input line whose trimmed
form begins with `--` — wherever it occurs, including mid-statement — is
appended to the comment buffer (first conjunct) and never enters the
statement buffer: no line of any emitted statement has a trimmed form
starting with `--` (second conjunct). -/
theorem claim_C10 (lines : List Str) (hnl : ∀ l ∈ lines, '\n' ∉ l) :
    (∀ (st : Str × Str × List (Str × Str)) (l : Str),
      isCommandSeparator l = false → isPre ['-', '-'] (trimSpace l) = true →
      pcStep st l = (st.1, st.2.1 ++ l ++ ['\n'], st.2.2)) ∧
    ∀ p ∈ processCommandsPairs lines, ∀ l ∈ splitOnNL p.1,
      isPre ['-', '-'] (trimSpace l) = false := by
  constructor
  · exact fun st l h1 h2 => pcStep_comment h1 h2
  · have hinv := pc_invariant lines hnl ([], [], []) ⟨by decide, by decide⟩
    intro p hp l hl
    unfold processCommandsPairs at hp
    by_cases hbe : (lines.foldl pcStep ([], [], [])).1.isEmpty = true
    · rw [if_pos hbe] at hp
      exact hinv.2 p hp l hl
    · rw [if_neg hbe] at hp
      rcases List.mem_append.mp hp with hm | hm
      · exact hinv.2 p hm l hl
      · rcases List.mem_cons.mp hm with he | hm'
        · subst he
          exact hinv.1 l hl
        · exact absurd hm' (List.not_mem_nil p)

theorem claim_C10_witness :
    isPre ['-', '-'] (trimSpace "SELECT 1".data) = false :=
  (claim_C10 ["-- tab = T".data, "SELECT 1".data] (by decide)).2
    ("SELECT 1".data, "-- tab = T\n".data) (by decide) "SELECT 1".data (by decide)

/-- C9 (counterexample): `sanitizeSheetName` replaces each forbidden
character by `_` — it does not strip it — and therefore only falls back to
the generic name for an empty input: on `"\"` the code yields `"_"` while
the spec's strip-then-fallback recipe (`sanitizeSheetNameSpec`) yields
`"Sheet"`. -/
theorem claim_C9_counterexample :
    sanitizeSheetName "\\".data = "_".data ∧
    sanitizeSheetNameSpec "\\".data = "Sheet".data ∧
    "_".data ≠ "Sheet".data := by decide

/-- C9 (amended): the sanitizer truncates to 31 first and then *replaces*
each of `\ / ? * [ ]` by `_` (so the fallback `"Sheet"` is reached only for
an empty input); the three sheet-name constraints nevertheless hold for
every input: the result is non-empty, at most 31 characters long, and free
of all six forbidden characters. -/
theorem claim_C9_amended :
    ∀ name : Str,
      sanitizeSheetName name ≠ [] ∧
      (sanitizeSheetName name).length ≤ 31 ∧
      ∀ c ∈ sanitizeSheetName name,
        ¬c ∈ (['\\', '/', '?', '*', '[', ']'] : List Char) := by
  intro name
  set n0 := if name.length > 31 then name.take 31 else name with hn0
  set n1 := replaceAll n0 ['\\'] ['_'] with hn1
  set n2 := replaceAll n1 ['/'] ['_'] with hn2
  set n3 := replaceAll n2 ['?'] ['_'] with hn3
  set n4 := replaceAll n3 ['*'] ['_'] with hn4
  set n5 := replaceAll n4 ['['] ['_'] with hn5
  set n6 := replaceAll n5 [']'] ['_'] with hn6
  have hres : sanitizeSheetName name = if n6.isEmpty then "Sheet".data else n6 := by
    rw [sanitizeSheetName, ← hn0, ← hn1, ← hn2, ← hn3, ← hn4, ← hn5, ← hn6]
  by_cases hemp : n6.isEmpty = true
  · rw [hres, if_pos hemp]
    exact ⟨by decide, by decide, by decide⟩
  · rw [hres, if_neg hemp]
    refine ⟨?_, ?_, ?_⟩
    · intro he
      rw [he] at hemp
      exact hemp rfl
    · have hlen : n6.length = n0.length := by
        rw [hn6, hn5, hn4, hn3, hn2, hn1]
        rw [replaceAll_single_length, replaceAll_single_length,
          replaceAll_single_length, replaceAll_single_length,
          replaceAll_single_length, replaceAll_single_length]
      have hlen0 : n0.length ≤ 31 := by
        rw [hn0]
        by_cases hgt : name.length > 31
        · rw [if_pos hgt]
          simp
        · rw [if_neg hgt]
          omega
      omega
    · have hbs1 : '\\' ∉ n1 := hn1 ▸ not_mem_replaceAll_self (by decide)
      have hbs2 : '\\' ∉ n2 := hn2 ▸ not_mem_replaceAll_of hbs1 (by decide)
      have hbs3 : '\\' ∉ n3 := hn3 ▸ not_mem_replaceAll_of hbs2 (by decide)
      have hbs4 : '\\' ∉ n4 := hn4 ▸ not_mem_replaceAll_of hbs3 (by decide)
      have hbs5 : '\\' ∉ n5 := hn5 ▸ not_mem_replaceAll_of hbs4 (by decide)
      have hbs6 : '\\' ∉ n6 := hn6 ▸ not_mem_replaceAll_of hbs5 (by decide)
      have hsl2 : '/' ∉ n2 := hn2 ▸ not_mem_replaceAll_self (by decide)
      have hsl3 : '/' ∉ n3 := hn3 ▸ not_mem_replaceAll_of hsl2 (by decide)
      have hsl4 : '/' ∉ n4 := hn4 ▸ not_mem_replaceAll_of hsl3 (by decide)
      have hsl5 : '/' ∉ n5 := hn5 ▸ not_mem_replaceAll_of hsl4 (by decide)
      have hsl6 : '/' ∉ n6 := hn6 ▸ not_mem_replaceAll_of hsl5 (by decide)
      have hqm3 : '?' ∉ n3 := hn3 ▸ not_mem_replaceAll_self (by decide)
      have hqm4 : '?' ∉ n4 := hn4 ▸ not_mem_replaceAll_of hqm3 (by decide)
      have hqm5 : '?' ∉ n5 := hn5 ▸ not_mem_replaceAll_of hqm4 (by decide)
      have hqm6 : '?' ∉ n6 := hn6 ▸ not_mem_replaceAll_of hqm5 (by decide)
      have hst4 : '*' ∉ n4 := hn4 ▸ not_mem_replaceAll_self (by decide)
      have hst5 : '*' ∉ n5 := hn5 ▸ not_mem_replaceAll_of hst4 (by decide)
      have hst6 : '*' ∉ n6 := hn6 ▸ not_mem_replaceAll_of hst5 (by decide)
      have hlb5 : '[' ∉ n5 := hn5 ▸ not_mem_replaceAll_self (by decide)
      have hlb6 : '[' ∉ n6 := hn6 ▸ not_mem_replaceAll_of hlb5 (by decide)
      have hrb6 : ']' ∉ n6 := hn6 ▸ not_mem_replaceAll_self (by decide)
      intro c hc hmem
      simp only [List.mem_cons, List.not_mem_nil, or_false] at hmem
      rcases hmem with he | he | he | he | he | he
      · exact hbs6 (he ▸ hc)
      · exact hsl6 (he ▸ hc)
      · exact hqm6 (he ▸ hc)
      · exact hst6 (he ▸ hc)
      · exact hlb6 (he ▸ hc)
      · exact hrb6 (he ▸ hc)

theorem claim_C9_witness :
    ¬( 'a' ∈ (['\\', '/', '?', '*', '[', ']'] : List Char)) :=
  (claim_C9_amended "a\\b[]".data).2.2 'a' (by decide)

end OracleGo
